import Mathlib

/-!
Verification of the superpixel region-adjacency-graph engine of
ClusteringSegmentation, shallowly embedded from
src/superpixels/MergeSuperpixelImage.cpp.  Pixel tags are 24-bit label
values embedded as `Nat`; similarity weights (C `float`) are embedded as
exact rationals `ℚ`, and the standard deviation (a C `sqrtf` call inside
the helper library) is embedded as a real number via `Real.sqrt`.
Association lists stand for the C++ `unordered_map` containers; only
lookup-relevant structure is used, never the bucket order.
-/

namespace ClusteringSeg

/-- A superpixel tag (a 24-bit label value, plus one after parsing). -/
abbrev Tag := Nat

/-- A pixel coordinate, stored as (x, y) exactly as `Superpixel::appendCoord`
receives it. -/
abbrev Coord := Nat × Nat

/-- Modelled from the spec: the `Superpixel` record of the missing
Superpixel.h header (§3 Data Model): a stable tag, the owned coordinate
list, and the two grown weight-history sequences. -/
structure Superpixel where
  tag : Tag
  coords : List Coord
  mergedEdgeWeights : List ℚ
  unmergedEdgeWeights : List ℚ
deriving DecidableEq, Repr

/-- Append one coordinate, as `Superpixel::appendCoord(x, y)` does. -/
def Superpixel.appendCoord (sp : Superpixel) (x y : Nat) : Superpixel :=
  { sp with coords := sp.coords ++ [(x, y)] }

/-- Update-or-insert for an association list keyed by tags: the behaviour
of `unordered_map::operator[] =` observed through `lookup`. -/
def alSet {α : Type} (m : List (Tag × α)) (k : Tag) (v : α) : List (Tag × α) :=
  if (m.lookup k).isSome then
    m.map (fun p => if p.1 = k then (k, v) else p)
  else
    m ++ [(k, v)]

/-- Delete a key, as `unordered_map::erase`. -/
def alErase {α : Type} (m : List (Tag × α)) (k : Tag) : List (Tag × α) :=
  m.filter (fun p => p.1 ≠ k)

/-- The owning region map `tagToSuperpixelMap` (tag → Superpixel). -/
abbrev SpMap := List (Tag × Superpixel)

/-- Modelled from the spec: a `SuperpixelEdge` of the missing header is an
unordered pair of distinct region ids (§3); its normal form keys the
cached-weight map. -/
def mkEdge (a b : Tag) : Tag × Tag := (min a b, max a b)

/-- Modelled from the spec: the `SuperpixelEdgeTable` of the missing
header (§4.2): per-region neighbor rows plus the cache of per-edge
weights. -/
structure SuperpixelEdgeTable where
  neighborsMap : List (Tag × List Tag)
  edgeStrengthMap : List ((Tag × Tag) × ℚ)
deriving DecidableEq, Repr

/-- Neighbor row of a tag (`SuperpixelEdgeTable::getNeighbors`): a copy of
the stored vector, empty when the key is absent. -/
def SuperpixelEdgeTable.getNeighbors (et : SuperpixelEdgeTable) (t : Tag) : List Tag :=
  (et.neighborsMap.lookup t).getD []

/-- Replace a neighbor row (`SuperpixelEdgeTable::setNeighbors`). -/
def SuperpixelEdgeTable.setNeighbors (et : SuperpixelEdgeTable) (t : Tag) (ns : List Tag) :
    SuperpixelEdgeTable :=
  { et with neighborsMap := alSet et.neighborsMap t ns }

/-- Drop a region's whole adjacency row (`SuperpixelEdgeTable::removeNeighbors`). -/
def SuperpixelEdgeTable.removeNeighbors (et : SuperpixelEdgeTable) (t : Tag) :
    SuperpixelEdgeTable :=
  { et with neighborsMap := alErase et.neighborsMap t }

/-- Erase one cached edge weight (`edgeTable.edgeStrengthMap.erase(cachedKey)`). -/
def SuperpixelEdgeTable.eraseStrength (et : SuperpixelEdgeTable) (e : Tag × Tag) :
    SuperpixelEdgeTable :=
  { et with edgeStrengthMap := et.edgeStrengthMap.filter (fun p => p.1 ≠ e) }

/-- The state of a `SuperpixelImage`: the owning region map, the active tag
list kept in ascending order, and the adjacency table. -/
structure SuperpixelImageState where
  tagToSuperpixelMap : SpMap
  superpixels : List Tag
  edgeTable : SuperpixelEdgeTable
deriving DecidableEq, Repr

/-- Lookup of a live region (`SuperpixelImage::getSuperpixelPtr`), `none`
standing for the NULL result on an already-merged tag. -/
def getSuperpixelPtr (st : SuperpixelImageState) (t : Tag) : Option Superpixel :=
  st.tagToSuperpixelMap.lookup t

/-- Neighbor row of the state's adjacency table. -/
def neighborsOf (st : SuperpixelImageState) (t : Tag) : List Tag :=
  st.edgeTable.getNeighbors t

/-! ## Numeric helpers of the missing utility library -/

/-- Modelled from the spec: `float_diffs` of the missing Util.cpp: the
successive deltas of a weight sequence, whose first element is the delta
from zero (the callers in MergeSuperpixelImage.cpp always erase it with
the comment "Always ignore first element since it is a delta from
zero"). -/
def float_diffs (l : List ℚ) : List ℚ :=
  List.zipWith (fun a b => a - b) l (0 :: l)

/-- Modelled from the spec: `sample_mean` of the missing Util.cpp: the
arithmetic mean of the values (§4.5 "compute sample mean"); zero on an
empty list. -/
def sample_mean (l : List ℚ) : ℚ :=
  l.sum / l.length

/-- Modelled from the spec: `sample_mean_delta_squared_div` of the missing
Util.cpp: the population standard deviation (§4.1), the square root of
the mean squared deviation from the given mean; zero on an empty list. -/
noncomputable def sample_mean_delta_squared_div (l : List ℚ) (mean : ℚ) : ℝ :=
  Real.sqrt (((l.map (fun x => (x - mean) ^ 2)).sum / l.length : ℚ))

/-! ## The growth-bound checker `pos_sample_within_bound` -/

/-- The strictly increasing subsequence collected by the loop at
MergeSuperpixelImage.cpp:3487-3504: starting from the first weight as
`prev`, keep exactly the later weights that exceed the running `prev`. -/
def increasing_weights : List ℚ → List ℚ
  | [] => []
  | w :: ws => go w ws
where
  /-- The loop body: keep a weight only when it exceeds the running previous. -/
  go : ℚ → List ℚ → List ℚ
  | _, [] => []
  | prev, w :: ws => if prev < w then w :: go w ws else go prev ws

/-- The growth-bound check `pos_sample_within_bound` of
MergeSuperpixelImage.cpp:3434-3588.  `none` models the
`assert(increasingWeights.size() > 0)` at line 3513 firing.  The final
comparison follows lines 3545-3587: reject exactly when the standard
deviation exceeds 0.01 and the candidate's delta above the last kept
weight is positive and above mean + 2 stddev. -/
noncomputable def pos_sample_within_bound (weights : List ℚ) (currentWeight : ℚ) :
    Option Bool :=
  if weights.length = 1 ∧ 1 / 2 < weights.headI then some false
  else if weights.length ≤ 2 then some true
  else
    let deltaWeights := (float_diffs weights).tail
    let numNonNegDeltas := (deltaWeights.filter (fun d => 0 < d)).length
    let absDeltas := (deltaWeights.filter (fun d => d ≠ 0)).map (fun d => |d|)
    if 3 ≤ numNonNegDeltas then
      let incW := increasing_weights weights
      if incW = [] then none
      else
        let useDeltas := (float_diffs incW).tail
        let mean := sample_mean useDeltas
        let stddev := sample_mean_delta_squared_div useDeltas mean
        let upperLimit : ℝ := mean + stddev * 2
        let currentWeightDelta := currentWeight - incW.getLastD 0
        if 1 / 100 < stddev ∧ 0 < currentWeightDelta ∧ upperLimit < currentWeightDelta
        then some false else some true
    else
      let useDeltas := absDeltas
      let mean := sample_mean useDeltas
      let stddev := sample_mean_delta_squared_div useDeltas mean
      let upperLimit : ℝ := mean + stddev * 2
      let currentWeightDelta := currentWeight - weights.getLastD 0
      if 1 / 100 < stddev ∧ 0 < currentWeightDelta ∧ upperLimit < currentWeightDelta
      then some false else some true

/-- The acceptance predicate exactly as the specification words it for the
growth-bound rule (§4.5, claim C4): accept iff the candidate minus the
LAST HISTORY weight is at most mean + 2·stddev, always accepting when the
stddev is at most 0.01; mean and stddev are taken over the absolute
successive deltas, computed from the strictly increasing subsequence when
at least 3 positive deltas exist, otherwise from the full nonzero delta
set.  Written from the spec's words for comparison with the embedded
code, which instead subtracts the last element of the increasing
subsequence. -/
noncomputable def growth_bound_claim_accepts (weights : List ℚ) (currentWeight : ℚ) :
    Prop :=
  let deltaWeights := (float_diffs weights).tail
  let numNonNegDeltas := (deltaWeights.filter (fun d => 0 < d)).length
  let useDeltas :=
    if 3 ≤ numNonNegDeltas then (float_diffs (increasing_weights weights)).tail
    else (deltaWeights.filter (fun d => d ≠ 0)).map (fun d => |d|)
  let mean := sample_mean useDeltas
  let stddev := sample_mean_delta_squared_div useDeltas mean
  stddev ≤ 1 / 100 ∨
    ((currentWeight - weights.getLastD 0 : ℚ) : ℝ) ≤ mean + stddev * 2

/-- The delta set used by the growth-bound check in its
3-or-more-positive-deltas branch: the successive deltas of the strictly
increasing subsequence (first delta-from-zero dropped). -/
def inc_deltas (weights : List ℚ) : List ℚ :=
  (float_diffs (increasing_weights weights)).tail

/-- The delta set used by the growth-bound check in its fallback branch:
the absolute values of the nonzero successive deltas of the history. -/
def abs_deltas (weights : List ℚ) : List ℚ :=
  (((float_diffs weights).tail).filter (fun d => d ≠ 0)).map (fun d => |d|)

/-! ## The largest-superpixel outlier scan -/

/-- The small-region threshold `MaxSmallNumPixelsVal` of
MergeSuperpixelImage.cpp:21. -/
def MaxSmallNumPixelsVal : Nat := 10

/-- Coordinate count of a region by tag, 0 when the tag is dead. -/
def sizeOfTag (st : SuperpixelImageState) (t : Tag) : Nat :=
  ((st.tagToSuperpixelMap.lookup t).map (fun sp => sp.coords.length)).getD 0

/-- The sizes entering the outlier statistics: sizes of the active regions
that are not below `MaxSmallNumPixelsVal`, in active order. -/
def nonSmallSizes (st : SuperpixelImageState) : List ℚ :=
  (st.superpixels.filter (fun t => ¬ sizeOfTag st t < MaxSmallNumPixelsVal)).map
    (fun t => (sizeOfTag st t : ℚ))

/-- The outlier scan `SuperpixelImage::scanLargestSuperpixels` of
MergeSuperpixelImage.cpp:4522-4632: collect the size of every active
region at least as large as `MaxSmallNumPixelsVal` (line 4544), take mean
and standard deviation, return the empty list when the standard deviation
is below 100 (lines 4591-4598), else return the tags whose size strictly
exceeds mean + stddev·0.5·3 (lines 4600-4629).  `none` models the
`assert(spPtr)` at line 4540 on a dead active tag. -/
noncomputable def scanLargestSuperpixels (st : SuperpixelImageState) :
    Option (List Tag) := do
  let pairs ← st.superpixels.foldlM
    (fun (acc : List (Tag × Nat)) t => do
      let sp ← getSuperpixelPtr st t
      if sp.coords.length < MaxSmallNumPixelsVal then pure acc
      else pure (acc ++ [(t, sp.coords.length)])) []
  let sizes : List ℚ := pairs.map (fun p => (p.2 : ℚ))
  let mean := sample_mean sizes
  let stddev := sample_mean_delta_squared_div sizes mean
  if stddev < 100 then pure []
  else
    let upperLimit : ℝ := mean + stddev * (1 / 2) * 3
    pure ((pairs.filter (fun p => upperLimit < ((p.2 : ℚ) : ℝ))).map Prod.fst)

/-- A one-region store (a single region of one pixel) used to instantiate
the general theorems on a concrete input. -/
def stSmallEx : SuperpixelImageState :=
  { tagToSuperpixelMap := [(1, ⟨1, [(0, 0)], [], []⟩)],
    superpixels := [1],
    edgeTable := ⟨[], []⟩ }

/-! ## The all-locked handlers of the breadth-first strategies -/

/-- Outcome of reaching the end of a pass with every superpixel locked:
either the strategy is done, or it re-scans with an updated lock table. -/
inductive AllLockedOutcome
  | done
  | rescan (locked : List (Tag × Bool))
deriving DecidableEq, Repr

/-- The lock-erasing loop shared by both all-locked handlers (lines
1255-1273 and 1577-1595): for every superpixel recorded in
`mergesSinceLockClear`, erase its lock entry when one exists. -/
def eraseTouchedLocks (mergesSinceLockClear : List Tag) (locked : List (Tag × Bool)) :
    List (Tag × Bool) :=
  mergesSinceLockClear.foldl
    (fun l merged => if (l.lookup merged).isSome then alErase l merged else l) locked

/-- The all-superpixels-locked handler of
`MergeSuperpixelImage::mergeBackprojectSuperpixels`
(MergeSuperpixelImage.cpp:1236-1280): when no superpixel was touched by a
merge since the last lock clear the strategy is done (lines 1246-1249);
otherwise only the touched superpixels' locks are erased and the pass
re-scans (lines 1255-1279).  `mergesSinceLockClear` is the key set of the
dirty-region table. -/
def backprojectAllLockedStep (mergesSinceLockClear : List Tag)
    (locked : List (Tag × Bool)) : AllLockedOutcome :=
  if mergesSinceLockClear = [] then AllLockedOutcome.done
  else AllLockedOutcome.rescan (eraseTouchedLocks mergesSinceLockClear locked)

/-- The all-superpixels-locked handler of
`MergeSuperpixelImage::mergeBredthFirstRecursive`
(MergeSuperpixelImage.cpp:1546-1602): the `if (1)` block at lines
1556-1566 makes the strategy terminate unconditionally, leaving the
lock-erasing code at lines 1568-1601 unreachable. -/
def bredthFirstRecursiveAllLockedStep (mergesSinceLockClear : List Tag)
    (locked : List (Tag × Bool)) : AllLockedOutcome :=
  if (1 : Nat) = 1 then AllLockedOutcome.done
  else if mergesSinceLockClear = [] then AllLockedOutcome.done
  else AllLockedOutcome.rescan (eraseTouchedLocks mergesSinceLockClear locked)

/-! ## Tiny-region cleanup: the large-neighbor filter -/

/-- Modelled from the spec: `getNeighborsSet` of the missing edge-table
header returns the neighbor ids as a `std::set`, iterated without
duplicates in ascending order (§4.2 "neighbors(id) → set of id"). -/
def SuperpixelEdgeTable.getNeighborsSet (et : SuperpixelEdgeTable) (t : Tag) : List Tag :=
  ((et.getNeighbors t).dedup).insertionSort (· ≤ ·)

/-- The while loop of `MergeSuperpixelImage::filterOutVeryLargeNeighbors`
(MergeSuperpixelImage.cpp:2485-2566) over the size-sorted tuple list:
stop when one tuple remains (line 2489), else compute mean and standard
deviation of the remaining sizes; the threshold is the maximum size
itself when the deviation is small (lines 2528-2535), else
mean + stddev·0.5 (line 2537); when the largest remaining size exceeds
the threshold, record that neighbor as large and drop it, else stop.  On
an empty tuple list the read `sizesVec[0]` at line 2522 has no defined
result, modelled as `none`. -/
noncomputable def filterLargeLoop : List (Tag × Nat) → List Tag → Option (List Tag)
  | [], _ => none
  | [_], largeNeighbors => some largeNeighbors
  | t0 :: t1 :: rest, largeNeighbors =>
    let sizesVec := ((t0 :: t1 :: rest).map (fun p => (p.2 : ℚ)))
    let mean := sample_mean sizesVec
    let stddev := sample_mean_delta_squared_div sizesVec mean
    let maxSize : ℚ := sizesVec.headI
    let stddevMin : ℝ :=
      if stddev < 1 then (maxSize : ℝ)
      else if stddev < (MaxSmallNumPixelsVal : ℝ) then (maxSize : ℝ)
      else (mean : ℝ) + stddev * (1 / 2)
    if stddevMin < (maxSize : ℝ) then
      filterLargeLoop (t1 :: rest) (largeNeighbors ++ [t0.1])
    else some largeNeighbors

/-- `MergeSuperpixelImage::filterOutVeryLargeNeighbors`
(MergeSuperpixelImage.cpp:2435-2578): pair every neighbor with its size
(`none` models the `assert(spPtr)` at line 2449 on a dead neighbor), sort
by decreasing size when more than one, and run the statistics loop. -/
noncomputable def filterOutVeryLargeNeighbors (st : SuperpixelImageState) (tag : Tag) :
    Option (List Tag) := do
  let tuples0 ← (st.edgeTable.getNeighborsSet tag).foldlM
    (fun (acc : List (Tag × Nat)) n => do
      let sp ← getSuperpixelPtr st n
      pure (acc ++ [(n, sp.coords.length)])) []
  let tuples := if 1 < tuples0.length
    then tuples0.insertionSort (fun a b => b.2 ≤ a.2)
    else tuples0
  filterLargeLoop tuples []

/-- The tags entering the neighbor-comparison list `results` of
`MergeSuperpixelImage::mergeSmallSuperpixels`
(MergeSuperpixelImage.cpp:2644-2670): the large neighbors are locked
(lines 2647-2660) and `compareNeighborSuperpixels` (lines 121-133) skips
exactly the locked neighbors; the Bhattacharyya weights come from the
external similarity evaluator and their sort permutes the list without
dropping or adding entries, so the comparison list is empty iff this list
is. -/
noncomputable def smallMergeCandidates (st : SuperpixelImageState) (tag : Tag) :
    Option (List Tag) := do
  let largeNeighbors ← filterOutVeryLargeNeighbors st tag
  pure ((st.edgeTable.getNeighborsSet tag).filter (fun n => ¬ n ∈ largeNeighbors))

/-! ## The label image and `SuperpixelImage::parse` -/

/-- The input label raster `Mat &tags`: `tagAt y x` is the 24-bit label
`Vec3BToUID(tags.at<Vec3b>(y, x))` (MergeSuperpixelImage.cpp:5265-5273). -/
structure TagImage where
  rows : Nat
  cols : Nat
  tagAt : Nat → Nat → Nat

/-- Row-major pixel traversal (y outer, x inner), as the double loops of
`parse` (lines 3747-3748) and `parseSuperpixelEdges` (lines 3890-3891). -/
def pixelList (img : TagImage) : List (Nat × Nat) :=
  (List.range img.rows).flatMap (fun y => (List.range img.cols).map (fun x => (y, x)))

/-- The reserved all-white label value 0x00FFFFFF. -/
def reservedTag : Nat := 0xFFFFFF

/-- One pixel of the first scan of `parse` (lines 3747-3800): fail on the
reserved label (lines 3763-3766) and on any label not below it (the
assert at line 3767), then offset the tag by one (line 3768) and append
the pixel's coordinate to that tag's superpixel, creating it on first
sight (lines 3775-3798). -/
def parsePixelStep (img : TagImage) (m : SpMap) (p : Nat × Nat) : Option SpMap :=
  let tag := img.tagAt p.1 p.2
  if tag = reservedTag then none
  else if tag < reservedTag then
    let tag1 := tag + 1
    match m.lookup tag1 with
    | some sp => some (alSet m tag1 (sp.appendCoord p.2 p.1))
    | none => some (m ++ [(tag1, ⟨tag1, [(p.2, p.1)], [], []⟩)])
  else none

/-- The in-place label increment of `parse` (lines 3768-3772), seen by the
edge scan and by the caller after a successful parse. -/
def incImage (img : TagImage) : TagImage :=
  { img with tagAt := fun y x => img.tagAt y x + 1 }

/-- The 8-connected neighborhood offsets (dX, dY) of
`parseSuperpixelEdges` (lines 3868-3877). -/
def neighborOffsets : List (Int × Int) :=
  [(-1, -1), (0, -1), (1, -1), (-1, 0), (1, 0), (-1, 1), (0, 1), (1, 1)]

/-- The inner offset loop of `parseSuperpixelEdges` (lines 3922-3968):
look up each of the 8 neighbors of (x, y), skip out-of-bounds and identical
tags, and append a previously unseen neighbor tag to the vector. -/
def edgeScanOffsets (img2 : TagImage) (y x : Nat) (centerTag : Tag) (vec0 : List Tag) :
    List Tag :=
  neighborOffsets.foldl (fun vec off =>
    let nX : Int := (x : Int) + off.1
    let nY : Int := (y : Int) + off.2
    if nX < 0 ∨ (img2.cols : Int) ≤ nX ∨ nY < 0 ∨ (img2.rows : Int) ≤ nY then vec
    else
      let found := img2.tagAt nY.toNat nX.toNat
      if found = centerTag then vec
      else if found ∈ vec then vec
      else vec ++ [found]) vec0

/-- The adjacency relation the edge scan reads off the label image: some
in-bounds pixel of tag `t` has an in-bounds 8-neighbor of differing tag
`t'`. -/
def adjacentTags (img2 : TagImage) (t t' : Tag) : Prop :=
  t' ≠ t ∧ ∃ p ∈ pixelList img2, ∃ off ∈ neighborOffsets,
    img2.tagAt p.1 p.2 = t ∧
    ¬((p.2 : Int) + off.1 < 0 ∨ (img2.cols : Int) ≤ (p.2 : Int) + off.1 ∨
      (p.1 : Int) + off.2 < 0 ∨ (img2.rows : Int) ≤ (p.1 : Int) + off.2) ∧
    img2.tagAt ((p.1 : Int) + off.2).toNat ((p.2 : Int) + off.1).toNat = t'

/-- One pixel of the edge scan (lines 3890-3980): find or create the
center tag's neighbor vector and extend it from the 8 surrounding
pixels. -/
def edgeScanPixel (img2 : TagImage) (nm : List (Tag × List Tag)) (p : Nat × Nat) :
    List (Tag × List Tag) :=
  let centerTag := img2.tagAt p.1 p.2
  let vec0 := (nm.lookup centerTag).getD []
  alSet nm centerTag (edgeScanOffsets img2 p.1 p.2 centerTag vec0)

/-- The tag-to-neighbor map built by the pixel scan of
`parseSuperpixelEdges`. -/
def tagToNeighborMapOf (img2 : TagImage) : List (Tag × List Tag) :=
  (pixelList img2).foldl (edgeScanPixel img2) []

/-- The per-superpixel step of `parseSuperpixelEdges` (lines 3986-4009):
read the collected neighbor vector and install it in the edge table;
`none` models the assert at lines 4004-4006 — with more than one
superpixel every superpixel must have a neighbor. -/
def setEdgesStep (nm : List (Tag × List Tag)) (nActive : Nat) (et : SuperpixelEdgeTable)
    (tag : Tag) : Option SuperpixelEdgeTable :=
  let vec := (nm.lookup tag).getD []
  if 1 < nActive ∧ vec = [] then none
  else some (et.setNeighbors tag vec)

/-- `SuperpixelImage::parseSuperpixelEdges` (lines 3856-4016) over the
incremented image. -/
def parseSuperpixelEdges (img2 : TagImage) (sps : List Tag) :
    Option SuperpixelEdgeTable :=
  let nm := tagToNeighborMapOf img2
  sps.foldlM (setEdgesStep nm sps.length) ⟨[], []⟩

/-- `SuperpixelImage::parse` (lines 3740-3852): group the pixels by
incremented label into superpixels, sort all tags ascending (line 3815),
then build the edge table from the (now incremented) label image.
Returns the mutated label image together with the parsed state. -/
def parse (img : TagImage) : Option (TagImage × SuperpixelImageState) := do
  let m ← (pixelList img).foldlM (parsePixelStep img) []
  let sps := (m.map Prod.fst).insertionSort (· ≤ ·)
  let img2 := incImage img
  let et ← parseSuperpixelEdges img2 sps
  pure (img2, ⟨m, sps, et⟩)

/-! ## The merge operator `SuperpixelImage::mergeEdge` -/

/-- One iteration of the src-neighbor repair loop of `mergeEdge`
(MergeSuperpixelImage.cpp:4174-4244): clear the cached strength of the
(src, n) edge (line 4184); for a neighbor other than dst, remove src from
its row — `none` models the assert at line 4215 when src is missing — and
when dst was not already among its remaining neighbors, link dst and the
neighbor bidirectionally (lines 4225-4242). -/
def mergeRepairStep (srcTag dstTag : Tag) (et : SuperpixelEdgeTable) (n : Tag) :
    Option SuperpixelEdgeTable :=
  let et1 := et.eraseStrength (mkEdge srcTag n)
  if n = dstTag then some et1
  else
    let ns := et1.getNeighbors n
    if srcTag ∈ ns then
      let others := ns.filter (fun x => x ≠ srcTag)
      if dstTag ∈ others then
        some (et1.setNeighbors n others)
      else
        let et2 := et1.setNeighbors dstTag (et1.getNeighbors dstTag ++ [n])
        some (et2.setNeighbors n (others ++ [dstTag]))
    else none

/-- The body of `mergeEdge` once the survivor (`dst`) and loser (`src`)
are chosen (MergeSuperpixelImage.cpp:4067-4310): transfer the loser's
coordinates (lines 4071-4075), drop the loser from the sorted active list
— `none` models the `assert(found)` at line 4131 —, remove the loser from
the survivor's row while clearing every survivor-touching cached weight —
`none` models the assert at line 4163 —, repair every other neighbor of
the loser, drop the loser's row, transfer the weight histories, and erase
the loser from the owning map. -/
def mergeTail (st : SuperpixelImageState) (src dst : Superpixel) :
    Option SuperpixelImageState :=
  let dst1 := { dst with coords := dst.coords ++ src.coords }
  let src1 := { src with coords := [] }
  let m1 := alSet st.tagToSuperpixelMap dst.tag dst1
  let m2 := alSet m1 src.tag src1
  if src.tag ∈ st.superpixels then
    let sps := st.superpixels.erase src.tag
    let ndst := st.edgeTable.getNeighbors dst.tag
    if src.tag ∈ ndst then
      let et1 := ndst.foldl
        (fun et n => SuperpixelEdgeTable.eraseStrength et (mkEdge dst.tag n))
        st.edgeTable
      let et2 := et1.setNeighbors dst.tag (ndst.filter (fun n => n ≠ src.tag))
      match (et2.getNeighbors src.tag).foldlM (mergeRepairStep src.tag dst.tag) et2 with
      | some et3 =>
        let et4 := et3.removeNeighbors src.tag
        let dst2 := { dst1 with
          mergedEdgeWeights := dst1.mergedEdgeWeights ++ src.mergedEdgeWeights,
          unmergedEdgeWeights := dst1.unmergedEdgeWeights ++ src.unmergedEdgeWeights }
        let m3 := alSet m2 dst.tag dst2
        let m4 := alErase m3 src.tag
        some { tagToSuperpixelMap := m4, superpixels := sps, edgeTable := et4 }
      | none => none
    else none
  else none

/-- `SuperpixelImage::mergeEdge` (MergeSuperpixelImage.cpp:4018-4311).
`none` models the asserts: distinct tags (line 4025), both live (lines
4034-4036), and those of `mergeTail`.  The larger region survives, ties
favoring the first argument (lines 4047-4065). -/
def mergeEdge (st : SuperpixelImageState) (eA eB : Tag) : Option SuperpixelImageState :=
  if eA = eB then none
  else
    match st.tagToSuperpixelMap.lookup eA, st.tagToSuperpixelMap.lookup eB with
    | some spA, some spB =>
      if spB.coords.length ≤ spA.coords.length then mergeTail st spB spA
      else mergeTail st spA spB
    | _, _ => none

/-- Total coordinate count over the active regions. -/
def totalCoords (st : SuperpixelImageState) : Nat :=
  (st.superpixels.map (fun t => sizeOfTag st t)).sum

/-- The states the public interface can produce: an initial parse followed
by any sequence of merges. -/
inductive Reachable : SuperpixelImageState → Prop
  | parsed (img img2 : TagImage) (st : SuperpixelImageState) :
      parse img = some (img2, st) → Reachable st
  | merged (st st' : SuperpixelImageState) (a b : Tag) :
      Reachable st → mergeEdge st a b = some st' → Reachable st'

/-- The structural well-formedness the engine maintains: a sorted active
list, live active tags, map entries tagged consistently with active tags,
and an adjacency table over active tags that is symmetric, irreflexive
and duplicate-free. -/
structure WF (st : SuperpixelImageState) : Prop where
  sorted : st.superpixels.Sorted (· < ·)
  mapKeysNodup : (st.tagToSuperpixelMap.map Prod.fst).Nodup
  rowKeysNodup : (st.edgeTable.neighborsMap.map Prod.fst).Nodup
  live : ∀ t ∈ st.superpixels, (st.tagToSuperpixelMap.lookup t).isSome
  keysActive : ∀ p ∈ st.tagToSuperpixelMap, p.1 ∈ st.superpixels
  tagMatch : ∀ p ∈ st.tagToSuperpixelMap, p.2.tag = p.1
  rowKeyActive : ∀ r ∈ st.edgeTable.neighborsMap, r.1 ∈ st.superpixels
  rowEntriesActive : ∀ r ∈ st.edgeTable.neighborsMap, ∀ n ∈ r.2, n ∈ st.superpixels
  symm : ∀ r ∈ st.edgeTable.neighborsMap, ∀ n ∈ r.2, r.1 ∈ st.edgeTable.getNeighbors n
  noSelf : ∀ r ∈ st.edgeTable.neighborsMap, r.1 ∉ r.2
  rowNodup : ∀ r ∈ st.edgeTable.neighborsMap, r.2.Nodup

/-- A two-region test store: region 1 owns two pixels, region 2 one, and
they are mutual neighbors. -/
def twoRegionState : SuperpixelImageState :=
  { tagToSuperpixelMap := [(1, ⟨1, [(0, 0), (1, 0)], [], []⟩),
      (2, ⟨2, [(0, 1)], [], []⟩)]
    superpixels := [1, 2]
    edgeTable := { neighborsMap := [(1, [2]), (2, [1])]
                   edgeStrengthMap := [] } }

/-- A 2×2 test label image: row 0 carries label 0, row 1 carries label 1. -/
def testImg : TagImage := ⟨2, 2, fun y _ => y⟩

/-! ## Facts about the modelled numeric helpers -/

theorem sample_mean_nonneg {l : List ℚ} (h : ∀ x ∈ l, 0 ≤ x) : 0 ≤ sample_mean l := by
  unfold sample_mean
  apply div_nonneg
  · exact List.sum_nonneg h
  · positivity

theorem sample_mean_delta_squared_div_nonneg (l : List ℚ) (m : ℚ) :
    0 ≤ sample_mean_delta_squared_div l m :=
  Real.sqrt_nonneg _

/-- The reject test of lines 3569-3587, read as an acceptance criterion:
with a nonnegative mean and stddev, the candidate is accepted exactly when
the stddev is at most 0.01 or the delta is at most mean + 2 stddev. -/
theorem accept_iff {mean : ℚ} {stddev : ℝ} {d : ℚ}
    (hm : 0 ≤ mean) (hs : 0 ≤ stddev) :
    (¬((1 : ℝ) / 100 < stddev ∧ 0 < d ∧ (mean + stddev * 2 : ℝ) < (d : ℚ))) ↔
      (stddev ≤ 1 / 100 ∨ ((d : ℚ) : ℝ) ≤ (mean : ℝ) + stddev * 2) := by
  constructor
  · intro h
    by_cases h1 : stddev ≤ 1 / 100
    · exact Or.inl h1
    · right
      by_cases h2 : (0 : ℚ) < d
      · by_contra h3
        exact h ⟨lt_of_not_le h1, h2, lt_of_not_le h3⟩
      · have hd : (d : ℝ) ≤ 0 := by
          have := not_lt.mp h2
          exact_mod_cast this
        have : (0 : ℝ) ≤ (mean : ℝ) + stddev * 2 := by
          have hm' : (0 : ℝ) ≤ (mean : ℝ) := by exact_mod_cast hm
          linarith
        linarith
  · rintro (h | h) ⟨h1, _, h3⟩
    · exact absurd h1 (not_lt.mpr h)
    · exact absurd h3 (not_lt.mpr h)

/-- Elements kept by the increasing-weights loop all exceed the running
previous value, and the kept list is strictly increasing. -/
theorem increasing_weights_go_spec (prev : ℚ) (ws : List ℚ) :
    (∀ x ∈ increasing_weights.go prev ws, prev < x) ∧
      (increasing_weights.go prev ws).Chain' (· < ·) := by
  induction ws generalizing prev with
  | nil => simp [increasing_weights.go]
  | cons w ws ih =>
    by_cases h : prev < w
    · have hw := ih w
      constructor
      · intro x hx
        rw [increasing_weights.go, if_pos h] at hx
        rcases List.mem_cons.mp hx with rfl | hx
        · exact h
        · exact lt_trans h (hw.1 x hx)
      · rw [increasing_weights.go, if_pos h]
        exact List.chain'_cons'.mpr ⟨fun y hy => hw.1 y (List.mem_of_mem_head? hy), hw.2⟩
    · rw [increasing_weights.go, if_neg h]
      exact ih prev

/-- Helper for `diffs_tail_pos`: deltas of consecutive entries of a strictly
increasing list are positive. -/
theorem zipWith_sub_shift_pos (a : ℚ) (rest : List ℚ)
    (h : (a :: rest).Chain' (· < ·)) :
    ∀ x ∈ List.zipWith (fun p q => p - q) rest (a :: rest), 0 < x := by
  induction rest generalizing a with
  | nil => simp
  | cons b rest ih =>
    intro x hx
    rw [List.chain'_cons] at h
    simp only [List.zipWith_cons_cons, List.mem_cons] at hx
    rcases hx with rfl | hx
    · linarith [h.1]
    · exact ih b h.2 x hx

/-- The successive deltas of a strictly increasing list are positive. -/
theorem diffs_tail_pos {l : List ℚ} (h : l.Chain' (· < ·)) :
    ∀ x ∈ (float_diffs l).tail, 0 < x := by
  match l with
  | [] => simp [float_diffs]
  | a :: rest =>
    intro x hx
    rw [float_diffs] at hx
    simp only [List.zipWith_cons_cons, List.tail_cons] at hx
    exact zipWith_sub_shift_pos a rest h x hx

/-- Characterization of an `ite` on `Option Bool` used by the bound check. -/
theorem ite_some_false_true {P : Prop} [Decidable P] :
    (if P then (some false : Option Bool) else some true) = some true ↔ ¬P := by
  by_cases h : P <;> simp [h]

/-- The increasing-weights list of a nonempty history is strictly increasing. -/
theorem increasing_weights_chain (weights : List ℚ) :
    (increasing_weights weights).Chain' (· < ·) := by
  match weights with
  | [] => simp [increasing_weights]
  | w :: ws => exact (increasing_weights_go_spec w ws).2

/-- Mean of the increasing-branch delta set is nonnegative. -/
theorem inc_deltas_mean_nonneg (weights : List ℚ) : 0 ≤ sample_mean (inc_deltas weights) := by
  apply sample_mean_nonneg
  intro x hx
  exact le_of_lt (diffs_tail_pos (increasing_weights_chain weights) x hx)

/-- Mean of the fallback delta set is nonnegative. -/
theorem abs_deltas_mean_nonneg (weights : List ℚ) : 0 ≤ sample_mean (abs_deltas weights) := by
  apply sample_mean_nonneg
  intro x hx
  unfold abs_deltas at hx
  obtain ⟨d, _, rfl⟩ := List.mem_map.mp hx
  exact abs_nonneg d

/-- CLAIM C4 (amended).  For a history of length at least 3 the
growth-bound check behaves as follows.  When at least 3 positive
successive deltas exist and the strictly increasing subsequence is
nonempty, the check accepts the candidate iff the standard deviation of
the increasing subsequence's deltas is at most 0.01 or the candidate
minus the LAST ELEMENT OF THE INCREASING SUBSEQUENCE (the running
maximum, not the last history weight as the claim states) is at most
mean + 2·stddev; when the increasing subsequence is empty the internal
assertion fires (no result).  Otherwise (fewer than 3 positive deltas)
the check accepts iff the same bound holds with mean and stddev over the
full nonzero absolute delta set and with the delta taken from the last
history weight. -/
theorem growth_bound_rule_iff (weights : List ℚ) (c : ℚ) (h3 : 3 ≤ weights.length) :
    (3 ≤ (((float_diffs weights).tail).filter (fun d => 0 < d)).length →
      (increasing_weights weights = [] → pos_sample_within_bound weights c = none) ∧
      (increasing_weights weights ≠ [] →
        (pos_sample_within_bound weights c = some true ↔
          sample_mean_delta_squared_div (inc_deltas weights) (sample_mean (inc_deltas weights)) ≤ 1 / 100 ∨
          ((c - (increasing_weights weights).getLastD 0 : ℚ) : ℝ) ≤
            (sample_mean (inc_deltas weights) : ℝ) +
              sample_mean_delta_squared_div (inc_deltas weights) (sample_mean (inc_deltas weights)) * 2))) ∧
    ((((float_diffs weights).tail).filter (fun d => 0 < d)).length < 3 →
      (pos_sample_within_bound weights c = some true ↔
        sample_mean_delta_squared_div (abs_deltas weights) (sample_mean (abs_deltas weights)) ≤ 1 / 100 ∨
        ((c - weights.getLastD 0 : ℚ) : ℝ) ≤
          (sample_mean (abs_deltas weights) : ℝ) +
            sample_mean_delta_squared_div (abs_deltas weights) (sample_mean (abs_deltas weights)) * 2)) := by
  have hne1 : ¬(weights.length = 1 ∧ 1 / 2 < weights.headI) := by
    rintro ⟨h1, _⟩; omega
  have hne2 : ¬(weights.length ≤ 2) := by omega
  constructor
  · intro hpos
    constructor
    · intro hemp
      simp only [pos_sample_within_bound]
      rw [if_neg hne1, if_neg hne2, if_pos hpos, if_pos hemp]
    · intro hemp
      simp only [pos_sample_within_bound]
      rw [if_neg hne1, if_neg hne2, if_pos hpos, if_neg hemp, ite_some_false_true]
      exact accept_iff (inc_deltas_mean_nonneg weights)
        (sample_mean_delta_squared_div_nonneg _ _)
  · intro hlt
    have hpos : ¬(3 ≤ (((float_diffs weights).tail).filter (fun d => 0 < d)).length) := by
      omega
    simp only [pos_sample_within_bound]
    rw [if_neg hne1, if_neg hne2, if_neg hpos, ite_some_false_true]
    exact accept_iff (abs_deltas_mean_nonneg weights)
      (sample_mean_delta_squared_div_nonneg _ _)

/-- Witness for `growth_bound_rule_iff`: at the flat history [1, 1, 1]
(no positive delta, so the fallback branch applies, and its delta set is
empty so the stddev is 0) the check accepts the candidate 5. -/
theorem growth_bound_rule_iff_witness :
    3 ≤ ([1, 1, 1] : List ℚ).length ∧
      pos_sample_within_bound [1, 1, 1] 5 = some true := by
  have hfd : (((float_diffs [1, 1, 1]).tail).filter (fun d => (0 : ℚ) < d)).length = 0 := by
    norm_num [float_diffs]
  have h := (growth_bound_rule_iff [1, 1, 1] 5 (by norm_num)).2 (by rw [hfd]; norm_num)
  refine ⟨by norm_num, h.mpr (Or.inl ?_)⟩
  have habs : abs_deltas [1, 1, 1] = [] := by
    norm_num [abs_deltas, float_diffs]
  rw [habs]
  unfold sample_mean_delta_squared_div
  norm_num

/-- COUNTEREXAMPLE to claim C4 as stated.  On the history
[0.1, 0.2, 0.5, 1, 0.9] (three positive deltas, so the increasing-branch
applies with increasing subsequence [0.2, 0.5, 1], deltas [0.3, 0.5],
mean 0.4 and stddev 0.1) and candidate 1.55, the code accepts — it
subtracts the last increasing weight 1, giving delta 0.55 ≤ 0.6 — while
the claim's formula, which subtracts the last history weight 0.9, gives
delta 0.65 > 0.6 with stddev 0.1 > 0.01 and therefore demands
rejection. -/
theorem growth_bound_rule_cex :
    pos_sample_within_bound [1/10, 1/5, 1/2, 1, 9/10] (31/20) = some true ∧
      ¬ growth_bound_claim_accepts [1/10, 1/5, 1/2, 1, 9/10] (31/20) := by
  have hinc : increasing_weights [1/10, 1/5, 1/2, 1, 9/10] = [1/5, 1/2, 1] := by
    norm_num [increasing_weights, increasing_weights.go]
  have htail : (float_diffs [1/10, 1/5, 1/2, 1, 9/10]).tail
      = [1/10, 3/10, 1/2, -(1/10)] := by
    norm_num [float_diffs]
  have hfilter : (([1/10, 3/10, 1/2, -(1/10)] : List ℚ).filter (fun d => (0:ℚ) < d)).length = 3 := by
    norm_num [List.filter]
  have hdel : (float_diffs [1/5, 1/2, (1:ℚ)]).tail = [3/10, 1/2] := by
    norm_num [float_diffs]
  have hmean : sample_mean [3/10, 1/2] = 2/5 := by
    norm_num [sample_mean]
  have hsig : sample_mean_delta_squared_div [3/10, 1/2] (2/5) = 1/10 := by
    unfold sample_mean_delta_squared_div
    have : ((([(3:ℚ)/10, 1/2].map (fun x => (x - 2/5) ^ 2)).sum / ([(3:ℚ)/10, 1/2].length) : ℚ)) = 1/100 := by
      norm_num
    rw [this]
    rw [show ((1/100 : ℚ) : ℝ) = (1/10 : ℝ) ^ 2 by push_cast; norm_num]
    exact Real.sqrt_sq (by norm_num)
  constructor
  · have h := (growth_bound_rule_iff [1/10, 1/5, 1/2, 1, 9/10] (31/20) (by norm_num)).1
      (by rw [htail, hfilter])
    refine (h.2 (by rw [hinc]; simp)).mpr (Or.inr ?_)
    unfold inc_deltas
    rw [hinc, hdel, hmean, hsig]
    norm_num
  · unfold growth_bound_claim_accepts
    simp only [htail, hfilter, hinc]
    rw [if_pos (by norm_num), hdel, hmean, hsig]
    push_neg
    constructor
    · norm_num
    · push_cast
      norm_num

/-- CLAIM C5 (amended).  A history of length at most 2 makes the
growth-bound check return true, except for the single-value history whose
value exceeds 0.5, which returns false (the single-value check runs
first, at lines 3437-3439, before the length-at-most-2 check at lines
3441-3445). -/
theorem short_history_rule :
    (∀ (w : List ℚ) (c : ℚ), w.length ≤ 2 → ¬(w.length = 1 ∧ 1 / 2 < w.headI) →
      pos_sample_within_bound w c = some true) ∧
    (∀ (x c : ℚ), 1 / 2 < x → pos_sample_within_bound [x] c = some false) := by
  constructor
  · intro w c h1 h2
    simp only [pos_sample_within_bound]
    rw [if_neg h2, if_pos h1]
  · intro x c hx
    simp only [pos_sample_within_bound]
    rw [if_pos ⟨by simp, by simpa using hx⟩]

/-- COUNTEREXAMPLE to claim C5 as stated: the history [0.6] has length at
most 2, yet the check returns false rather than the claimed true, because
the single-value-above-0.5 rule runs first. -/
theorem short_history_rule_cex :
    ([3/5] : List ℚ).length ≤ 2 ∧
      pos_sample_within_bound [3/5] 0 = some false := by
  refine ⟨by norm_num, ?_⟩
  simp only [pos_sample_within_bound]
  rw [if_pos ⟨by simp, by norm_num⟩]

/-! ## The largest-superpixel outlier scan: claim C7 -/

/-- A list bounded below pointwise has its mean bounded below. -/
theorem le_sample_mean_of_forall_le {l : List ℚ} {b : ℚ}
    (hne : l ≠ []) (h : ∀ x ∈ l, b ≤ x) :
    b ≤ sample_mean l := by
  have hlen : 0 < (l.length : ℚ) := by
    have : 0 < l.length := List.length_pos.mpr hne
    exact_mod_cast this
  have hsum : b * l.length ≤ l.sum := by
    clear hne hlen
    induction l with
    | nil => simp
    | cons x xs ih =>
      have hx := h x (List.mem_cons_self x xs)
      have := ih (fun y hy => h y (List.mem_cons_of_mem x hy))
      simp only [List.sum_cons, List.length_cons]
      push_cast
      nlinarith
  rw [sample_mean, le_div_iff hlen]
  linarith

/-- The standard deviation of the empty list is zero. -/
theorem sample_mean_delta_squared_div_nil (m : ℚ) :
    sample_mean_delta_squared_div [] m = 0 := by
  unfold sample_mean_delta_squared_div
  norm_num

/-- The size-collecting loop of `scanLargestSuperpixels` (lines 4537-4550)
returns, in order, the active tags of size at least 10 paired with their
sizes. -/
theorem scan_fold_spec (st : SuperpixelImageState) (l : List Tag) (acc : List (Tag × Nat))
    (hlive : ∀ t ∈ l, (getSuperpixelPtr st t).isSome) :
    l.foldlM
      (fun (acc : List (Tag × Nat)) t => do
        let sp ← getSuperpixelPtr st t
        if sp.coords.length < MaxSmallNumPixelsVal then pure acc
        else pure (acc ++ [(t, sp.coords.length)])) acc
    = some (acc ++ (l.filter (fun t => ¬ sizeOfTag st t < MaxSmallNumPixelsVal)).map
        (fun t => (t, sizeOfTag st t))) := by
  induction l generalizing acc with
  | nil => simp
  | cons t l ih =>
    obtain ⟨sp, hsp⟩ := Option.isSome_iff_exists.mp (hlive t (List.mem_cons_self t l))
    have hlive' : ∀ u ∈ l, (getSuperpixelPtr st u).isSome :=
      fun u hu => hlive u (List.mem_cons_of_mem t hu)
    have hsp' : List.lookup t st.tagToSuperpixelMap = some sp := hsp
    have hsize : sizeOfTag st t = sp.coords.length := by
      simp [sizeOfTag, hsp']
    rw [List.foldlM_cons]
    by_cases hsmall : sp.coords.length < MaxSmallNumPixelsVal
    · have hstep : (do
          let sp ← getSuperpixelPtr st t
          if sp.coords.length < MaxSmallNumPixelsVal then pure acc
          else pure (acc ++ [(t, sp.coords.length)]) : Option (List (Tag × Nat)))
          = some acc := by
        rw [hsp]
        simp [hsmall]
      rw [hstep]
      show List.foldlM _ acc l = _
      rw [ih acc hlive']
      simp [List.filter_cons, hsize, hsmall]
    · have hstep : (do
          let sp ← getSuperpixelPtr st t
          if sp.coords.length < MaxSmallNumPixelsVal then pure acc
          else pure (acc ++ [(t, sp.coords.length)]) : Option (List (Tag × Nat)))
          = some (acc ++ [(t, sp.coords.length)]) := by
        rw [hsp]
        simp [hsmall]
      rw [hstep]
      show List.foldlM _ (acc ++ [(t, sp.coords.length)]) l = _
      rw [ih (acc ++ [(t, sp.coords.length)]) hlive']
      simp only [List.filter_cons, hsize, hsmall, decide_not, List.append_assoc,
        List.singleton_append, decide_eq_false_iff_not, not_lt]
      rw [if_pos (by simp [Nat.le_of_not_lt hsmall])]
      simp [hsize]

/-- CLAIM C7.  On a store whose active tags are all live, the outlier
scan computes mean and population standard deviation of the region sizes
ignoring regions below the minimum count 10, returns an empty sequence
whenever the standard deviation is below 100, and otherwise returns
exactly the active ids whose size strictly exceeds mean + 1.5·stddev. -/
theorem scanLargest_outlier_spec (st : SuperpixelImageState)
    (hlive : ∀ t ∈ st.superpixels, (getSuperpixelPtr st t).isSome) :
    scanLargestSuperpixels st = some (
      if sample_mean_delta_squared_div (nonSmallSizes st) (sample_mean (nonSmallSizes st)) < 100
      then []
      else st.superpixels.filter (fun t =>
        (sample_mean (nonSmallSizes st) : ℝ) +
          sample_mean_delta_squared_div (nonSmallSizes st) (sample_mean (nonSmallSizes st)) * (3 / 2)
          < ((sizeOfTag st t : ℚ) : ℝ))) := by
  unfold scanLargestSuperpixels
  rw [show ([] : List (Tag × Nat)) = [] from rfl]
  rw [scan_fold_spec st st.superpixels [] hlive]
  simp only [Option.bind_eq_bind, Option.some_bind, List.nil_append]
  set pairs := (st.superpixels.filter (fun t => ¬ sizeOfTag st t < MaxSmallNumPixelsVal)).map
      (fun t => (t, sizeOfTag st t)) with hpairs
  have hsizes : pairs.map (fun p => ((p.2 : ℚ))) = nonSmallSizes st := by
    rw [hpairs, nonSmallSizes, List.map_map]
    rfl
  rw [hsizes]
  set mean := sample_mean (nonSmallSizes st) with hmean
  set stddev := sample_mean_delta_squared_div (nonSmallSizes st) mean with hstddev
  by_cases hlow : stddev < 100
  · rw [if_pos hlow, if_pos hlow]
    rfl
  · rw [if_neg hlow, if_neg hlow]
    have hne : nonSmallSizes st ≠ [] := by
      intro hnil
      apply hlow
      rw [hstddev, hnil, sample_mean_delta_squared_div_nil]
      norm_num
    have hmean10 : (10 : ℚ) ≤ mean := by
      rw [hmean]
      apply le_sample_mean_of_forall_le hne
      intro x hx
      rw [nonSmallSizes] at hx
      obtain ⟨t, ht, rfl⟩ := List.mem_map.mp hx
      have h10 : MaxSmallNumPixelsVal ≤ sizeOfTag st t := by
        simpa using List.of_mem_filter ht
      rw [MaxSmallNumPixelsVal] at h10
      exact_mod_cast h10
    have hσ0 : (0 : ℝ) ≤ stddev := sample_mean_delta_squared_div_nonneg _ _
    have hform : ∀ q : ℚ, ((mean : ℝ) + stddev * (1 / 2) * 3 < (q : ℝ))
        ↔ ((mean : ℝ) + stddev * (3 / 2) < (q : ℝ)) := by
      intro q
      constructor <;> intro h <;> linarith
    congr 1
    rw [hpairs, List.filter_map, List.map_map]
    have hfun : (Prod.fst ∘ fun t => (t, sizeOfTag st t)) = id := rfl
    rw [hfun, List.map_id, List.filter_filter]
    apply List.filter_congr
    intro t _
    simp only [Function.comp_apply]
    have hAB := hform ((sizeOfTag st t : ℚ))
    by_cases hB : (mean : ℝ) + stddev * (3 / 2) < ((sizeOfTag st t : ℚ) : ℝ)
    · have hS : ¬ sizeOfTag st t < MaxSmallNumPixelsVal := by
        intro hsmallt
        have h1 : (sizeOfTag st t : ℚ) < 10 := by
          rw [MaxSmallNumPixelsVal] at hsmallt
          exact_mod_cast hsmallt
        have hsz : ((sizeOfTag st t : ℚ) : ℝ) < 10 := by exact_mod_cast h1
        have hm : (10 : ℝ) ≤ (mean : ℝ) := by exact_mod_cast hmean10
        linarith
      rw [decide_eq_true (hAB.mpr hB), decide_eq_true hS, decide_eq_true hB]
      rfl
    · have hA : ¬ ((mean : ℝ) + stddev * (1 / 2) * 3 < ((sizeOfTag st t : ℚ) : ℝ)) :=
        fun h => hB (hAB.mp h)
      rw [decide_eq_false hA, decide_eq_false hB, Bool.false_and]

/-- Witness for `scanLargest_outlier_spec`: on the one-pixel one-region
store every size is below the minimum count, the statistics cover no
region, the standard deviation is 0 < 100, and the scan returns the empty
list. -/
theorem scanLargest_outlier_spec_witness :
    scanLargestSuperpixels stSmallEx = some [] := by
  have h := scanLargest_outlier_spec stSmallEx (by decide)
  have hns : nonSmallSizes stSmallEx = [] := by decide
  rw [hns, sample_mean_delta_squared_div_nil] at h
  rw [if_pos (by norm_num : (0:ℝ) < 100)] at h
  exact h

/-! ## The all-locked fixed point: claim C8 -/

/-- Lookup after erasing a key. -/
theorem lookup_alErase {α : Type} (m : List (Tag × α)) (k k' : Tag) :
    (alErase m k).lookup k' = if k' = k then none else m.lookup k' := by
  induction m with
  | nil => simp [alErase]
  | cons p m ih =>
    by_cases hp : p.1 = k
    · rw [alErase, List.filter_cons_of_neg (by simp [hp])]
      rw [alErase] at ih
      rw [ih]
      by_cases hk : k' = k
      · simp [hk]
      · simp only [if_neg hk]
        rw [List.lookup_cons]
        have : (k' == p.1) = false := by
          rw [hp]
          exact beq_false_of_ne hk
        rw [this]
    · rw [alErase, List.filter_cons_of_pos (by simp [hp])]
      rw [List.lookup_cons, List.lookup_cons]
      by_cases hkp : k' = p.1
      · have h1 : (k' == p.1) = true := by simp [hkp]
        rw [h1]
        rw [if_neg (show ¬ k' = k from fun h => hp (by rw [← hkp]; exact h))]
      · have h1 : (k' == p.1) = false := by simp [hkp]
        rw [h1]
        rw [alErase] at ih
        exact ih

/-- One iteration of the lock-erasing loop removes exactly the touched key. -/
theorem lookup_eraseStep {l : List (Tag × Bool)} (m k : Tag) :
    ((if (l.lookup m).isSome then alErase l m else l).lookup k)
      = if k = m then none else l.lookup k := by
  by_cases hs : (l.lookup m).isSome
  · rw [if_pos hs, lookup_alErase]
  · rw [if_neg hs]
    by_cases hk : k = m
    · subst hk
      simp only [if_pos rfl]
      exact Option.not_isSome_iff_eq_none.mp hs
    · rw [if_neg hk]

/-- The lock-erasing loop removes exactly the locks of the touched
superpixels and no others. -/
theorem lookup_eraseTouchedLocks (ms : List Tag) (locked : List (Tag × Bool)) (k : Tag) :
    (eraseTouchedLocks ms locked).lookup k
      = if k ∈ ms then none else locked.lookup k := by
  induction ms generalizing locked with
  | nil => simp [eraseTouchedLocks]
  | cons m ms ih =>
    rw [eraseTouchedLocks, List.foldl_cons]
    rw [show List.foldl _ _ ms = eraseTouchedLocks ms _ from rfl, ih]
    rw [lookup_eraseStep]
    by_cases h1 : k ∈ ms
    · simp [h1]
    · by_cases h2 : k = m
      · simp [h1, h2]
      · simp [h1, h2]

/-- CLAIM C8 (amended).  In `mergeBackprojectSuperpixels`, when every
region is locked at the end of a pass the strategy terminates iff no
region was touched by a merge since the last lock clear, and otherwise it
re-scans after clearing exactly the locks of the touched regions; in
`mergeBredthFirstRecursive` the corresponding unlock path is disabled by
an `if (1)` guard and the strategy always terminates once every region is
locked, even when regions were touched. -/
theorem allLocked_fixed_point :
    (∀ locked, backprojectAllLockedStep [] locked = AllLockedOutcome.done) ∧
    (∀ ms locked, ms ≠ [] →
      backprojectAllLockedStep ms locked
        = AllLockedOutcome.rescan (eraseTouchedLocks ms locked) ∧
      ∀ k, (eraseTouchedLocks ms locked).lookup k
        = if k ∈ ms then none else locked.lookup k) ∧
    (∀ ms locked, bredthFirstRecursiveAllLockedStep ms locked = AllLockedOutcome.done) := by
  refine ⟨fun locked => by simp [backprojectAllLockedStep], ?_, ?_⟩
  · intro ms locked hne
    exact ⟨by rw [backprojectAllLockedStep, if_neg hne],
      fun k => lookup_eraseTouchedLocks ms locked k⟩
  · intro ms locked
    rw [bredthFirstRecursiveAllLockedStep, if_pos rfl]

/-- COUNTEREXAMPLE to claim C8 as stated: in `mergeBredthFirstRecursive`
(one of the claim's two cited code regions), with region 7 touched by a
merge since the last clear and locked, the all-locked handler still
terminates instead of clearing the touched lock and re-scanning. -/
theorem allLocked_fixed_point_cex :
    bredthFirstRecursiveAllLockedStep [7] [(7, true)] = AllLockedOutcome.done ∧
      ([7] : List Tag) ≠ [] ∧
      backprojectAllLockedStep [7] [(7, true)]
        = AllLockedOutcome.rescan [] := by
  refine ⟨rfl, by simp, ?_⟩
  rw [backprojectAllLockedStep, if_neg (by simp)]
  rfl

/-! ## Tiny-region cleanup access safety: claim C10 -/

/-- An if-then-else takes one of its two branches. -/
theorem step_ite_cases {α : Type} (P : Prop) [Decidable P] (a b : α) :
    (if P then a else b) = a ∨ (if P then a else b) = b := by
  by_cases h : P <;> simp [h]

/-- The filter loop keeps at least one tuple: it returns a strict prefix
of the sorted neighbor list. -/
theorem filterLargeLoop_spec (tuples : List (Tag × Nat)) (acc : List Tag)
    (hne : tuples ≠ []) :
    ∃ k, k < tuples.length ∧
      filterLargeLoop tuples acc = some (acc ++ ((tuples.map Prod.fst).take k)) := by
  induction tuples generalizing acc with
  | nil => exact absurd rfl hne
  | cons t0 tl ih =>
    match tl with
    | [] =>
      refine ⟨0, by norm_num, ?_⟩
      simp [filterLargeLoop]
    | t1 :: rest =>
      have hsplit : filterLargeLoop (t0 :: t1 :: rest) acc
            = filterLargeLoop (t1 :: rest) (acc ++ [t0.1]) ∨
          filterLargeLoop (t0 :: t1 :: rest) acc = some acc := by
        simp only [filterLargeLoop]
        exact step_ite_cases _ _ _
      rcases hsplit with heq | heq
      · obtain ⟨k', hk', heq'⟩ := ih (acc ++ [t0.1]) (by simp)
        refine ⟨k' + 1, by simpa using Nat.succ_lt_succ hk', ?_⟩
        rw [heq, heq']
        simp
      · exact ⟨0, by simp, by rw [heq]; simp⟩

/-- The size-pairing loop of `filterOutVeryLargeNeighbors` (lines
2447-2463) pairs every live neighbor with its size. -/
theorem sizes_fold_spec (st : SuperpixelImageState) (l : List Tag) (acc : List (Tag × Nat))
    (hlive : ∀ n ∈ l, (getSuperpixelPtr st n).isSome) :
    l.foldlM
      (fun (acc : List (Tag × Nat)) n => do
        let sp ← getSuperpixelPtr st n
        pure (acc ++ [(n, sp.coords.length)])) acc
    = some (acc ++ l.map (fun n => (n, sizeOfTag st n))) := by
  induction l generalizing acc with
  | nil => simp
  | cons n l ih =>
    obtain ⟨sp, hsp⟩ := Option.isSome_iff_exists.mp (hlive n (List.mem_cons_self n l))
    have hsp' : List.lookup n st.tagToSuperpixelMap = some sp := hsp
    have hsize : sizeOfTag st n = sp.coords.length := by
      simp [sizeOfTag, hsp']
    rw [List.foldlM_cons]
    have hstep : (do
        let sp ← getSuperpixelPtr st n
        pure (acc ++ [(n, sp.coords.length)]) : Option (List (Tag × Nat)))
        = some (acc ++ [(n, sp.coords.length)]) := by
      rw [hsp]
      rfl
    rw [hstep]
    show List.foldlM _ (acc ++ [(n, sp.coords.length)]) l = _
    rw [ih _ (fun u hu => hlive u (List.mem_cons_of_mem n hu))]
    simp [hsize]

/-- The large-neighbor filter never excludes every neighbor: whenever a
region has at least one live neighbor, the comparison candidate list is
nonempty. -/
theorem small_merge_candidates_ne_nil (st : SuperpixelImageState) (tag : Tag)
    (hne : st.edgeTable.getNeighborsSet tag ≠ [])
    (hlive : ∀ n ∈ st.edgeTable.getNeighborsSet tag, (getSuperpixelPtr st n).isSome) :
    ∃ res, smallMergeCandidates st tag = some res ∧ res ≠ [] := by
    set ns := st.edgeTable.getNeighborsSet tag with hns
    have hnodup : ns.Nodup := by
      rw [hns, SuperpixelEdgeTable.getNeighborsSet]
      exact ((List.perm_insertionSort _ _).nodup_iff).mpr (List.nodup_dedup _)
    have hfold := sizes_fold_spec st ns [] hlive
    set tuples0 := ns.map (fun n => (n, sizeOfTag st n)) with htuples0
    set tuples := if 1 < tuples0.length
      then tuples0.insertionSort (fun a b => b.2 ≤ a.2)
      else tuples0 with htuples
    have hperm : List.Perm tuples tuples0 := by
      rw [htuples]
      split
      · exact List.perm_insertionSort _ _
      · rfl
    have hlen : tuples.length = ns.length := by
      rw [hperm.length_eq, htuples0, List.length_map]
    have htne : tuples ≠ [] := by
      intro h
      rw [h] at hlen
      exact hne (List.length_eq_zero.mp hlen.symm)
    obtain ⟨k, hk, hloop⟩ := filterLargeLoop_spec tuples [] htne
    have hout : filterOutVeryLargeNeighbors st tag
        = some ((tuples.map Prod.fst).take k) := by
      rw [filterOutVeryLargeNeighbors]
      rw [hfold]
      show filterLargeLoop tuples [] = _
      rw [hloop]
      simp
    refine ⟨ns.filter (fun n => ¬ n ∈ (tuples.map Prod.fst).take k), ?_, ?_⟩
    · rw [smallMergeCandidates, hout]
      rfl
    · intro hnil
      have hsub : ∀ n ∈ ns, n ∈ (tuples.map Prod.fst).take k := by
        intro n hn
        by_contra hcon
        have : n ∈ ns.filter (fun n => ¬ n ∈ (tuples.map Prod.fst).take k) :=
          List.mem_filter.mpr ⟨hn, by simpa using hcon⟩
        rw [hnil] at this
        exact absurd this (List.not_mem_nil n)
      have hlarge_len : ((tuples.map Prod.fst).take k).length ≤ k :=
        (List.length_take k _).le.trans (min_le_left _ _)
      have hcard : ns.length ≤ ((tuples.map Prod.fst).take k).length := by
        have h1 : ns.toFinset.card = ns.length := List.toFinset_card_of_nodup hnodup
        have h2 : ns.toFinset ⊆ ((tuples.map Prod.fst).take k).toFinset := by
          intro x hx
          exact List.mem_toFinset.mpr (hsub x (List.mem_toFinset.mp hx))
        calc ns.length = ns.toFinset.card := h1.symm
          _ ≤ ((tuples.map Prod.fst).take k).toFinset.card := Finset.card_le_card h2
          _ ≤ ((tuples.map Prod.fst).take k).length := List.toFinset_card_le _
      omega

/-- CLAIM C10 (amended).  The `results[0]` access at
MergeSuperpixelImage.cpp:2670 indeed has no emptiness guard, but the
large-neighbor filter can never exclude all neighbors: its loop stops
with at least one tuple remaining, so whenever a small region has at
least one live neighbor, the comparison list is nonempty and the access
is defined.  The undefined-element access of the cleanup is reachable
only for a region with no neighbors at all, and then it happens earlier,
at the `sizesVec[0]` read inside `filterOutVeryLargeNeighbors` itself. -/
theorem small_merge_access_spec (st : SuperpixelImageState) (tag : Tag) :
    (st.edgeTable.getNeighborsSet tag ≠ [] →
      (∀ n ∈ st.edgeTable.getNeighborsSet tag, (getSuperpixelPtr st n).isSome) →
      ∃ res, smallMergeCandidates st tag = some res ∧ res ≠ []) ∧
    (st.edgeTable.getNeighborsSet tag = [] →
      filterOutVeryLargeNeighbors st tag = none) := by
  refine ⟨small_merge_candidates_ne_nil st tag, ?_⟩
  intro hnil
  rw [filterOutVeryLargeNeighbors, hnil]
  rfl

/-- COUNTEREXAMPLE to claim C10 as stated: there is no region store and
small region whose neighbors are all live, at least one neighbor exists,
and the large-neighbor filter locks them all (giving the comparison list
no elements): the filter always leaves at least one candidate. -/
theorem small_merge_access_cex :
    ¬ ∃ (st : SuperpixelImageState) (tag : Tag),
        st.edgeTable.getNeighborsSet tag ≠ [] ∧
        (∀ n ∈ st.edgeTable.getNeighborsSet tag, (getSuperpixelPtr st n).isSome) ∧
        smallMergeCandidates st tag = some [] := by
  rintro ⟨st, tag, hne, hlive, hempty⟩
  obtain ⟨res, hres, hresne⟩ := small_merge_candidates_ne_nil st tag hne hlive
  rw [hres] at hempty
  exact hresne (Option.some_injective _ hempty)

/-! ## Association-list toolkit -/

/-- Boolean equality is false on distinct tags. -/
theorem tag_beq_false {a b : Tag} (h : a ≠ b) : (a == b) = false := by
  simp [h]

/-- A successful lookup comes from a member pair. -/
theorem lookup_mem {α : Type} {m : List (Tag × α)} {k : Tag} {v : α}
    (h : m.lookup k = some v) : (k, v) ∈ m := by
  induction m with
  | nil => simp [List.lookup] at h
  | cons p m ih =>
    obtain ⟨pk, pv⟩ := p
    by_cases hk : k = pk
    · subst hk
      simp only [List.lookup_cons, beq_self_eq_true, Option.some.injEq] at h
      subst h
      exact List.mem_cons_self _ _
    · simp only [List.lookup_cons, tag_beq_false hk] at h
      exact List.mem_cons_of_mem _ (ih h)

/-- Prepending a pair with a different key commutes with `alSet`. -/
theorem alSet_cons_ne {α : Type} (p : Tag × α) (m : List (Tag × α)) (k : Tag) (v : α)
    (hp : p.1 ≠ k) : alSet (p :: m) k v = p :: alSet m k v := by
  obtain ⟨pk, pv⟩ := p
  have hpk : pk ≠ k := by simpa using hp
  have hl : ((pk, pv) :: m).lookup k = m.lookup k := by
    simp only [List.lookup_cons, tag_beq_false (Ne.symm hpk)]
  rw [alSet, alSet, hl]
  by_cases hs : (m.lookup k).isSome
  · rw [if_pos hs, if_pos hs, List.map_cons, if_neg hp]
  · rw [if_neg hs, if_neg hs, List.cons_append]

/-- Rewriting the key-`k` entries does not change lookups of other keys. -/
theorem lookup_map_overwrite {α : Type} (m : List (Tag × α)) (k k' : Tag) (v : α)
    (hne : k' ≠ k) :
    (m.map (fun p => if p.1 = k then (k, v) else p)).lookup k' = m.lookup k' := by
  induction m with
  | nil => rfl
  | cons p m ih =>
    obtain ⟨pk, pv⟩ := p
    by_cases hp : pk = k
    · subst hp
      rw [List.map_cons]
      rw [show (if ((pk, pv) : Tag × α).1 = pk then (pk, v) else (pk, pv)) = (pk, v)
        from if_pos rfl]
      simp only [List.lookup_cons, tag_beq_false hne]
      exact ih
    · rw [List.map_cons]
      rw [show (if ((pk, pv) : Tag × α).1 = k then (k, v) else (pk, pv)) = (pk, pv)
        from if_neg hp]
      by_cases hk' : k' = pk
      · subst hk'
        simp only [List.lookup_cons, beq_self_eq_true]
      · simp only [List.lookup_cons, tag_beq_false hk']
        exact ih

/-- Lookup after an update-or-insert. -/
theorem lookup_alSet {α : Type} (m : List (Tag × α)) (k : Tag) (v : α) (k' : Tag) :
    (alSet m k v).lookup k' = if k' = k then some v else m.lookup k' := by
  induction m with
  | nil =>
    show ([(k, v)] : List (Tag × α)).lookup k' = _
    by_cases hk : k' = k
    · subst hk
      simp [List.lookup_cons]
    · simp [List.lookup_cons, tag_beq_false hk, hk]
  | cons p m ih =>
    obtain ⟨pk, pv⟩ := p
    by_cases hp : pk = k
    · subst hp
      have hsome : (((pk, pv) :: m).lookup pk).isSome := by
        simp [List.lookup_cons]
      rw [alSet, if_pos hsome, List.map_cons]
      rw [show (if ((pk, pv) : Tag × α).1 = pk then (pk, v) else (pk, pv)) = (pk, v)
        from if_pos rfl]
      by_cases hk : k' = pk
      · subst hk
        simp [List.lookup_cons]
      · rw [if_neg hk]
        simp only [List.lookup_cons, tag_beq_false hk]
        exact lookup_map_overwrite m pk k' v hk
    · rw [alSet_cons_ne (pk, pv) m k v (by simpa using hp)]
      by_cases hk' : k' = pk
      · subst hk'
        rw [if_neg hp]
        simp [List.lookup_cons]
      · simp only [List.lookup_cons, tag_beq_false hk']
        exact ih

/-- Keys present after an update-or-insert. -/
theorem mem_keys_alSet {α : Type} (m : List (Tag × α)) (k : Tag) (v : α) (k' : Tag) :
    k' ∈ (alSet m k v).map Prod.fst ↔ k' = k ∨ k' ∈ m.map Prod.fst := by
  rw [alSet]
  by_cases hs : (m.lookup k).isSome
  · rw [if_pos hs]
    obtain ⟨w, hw⟩ := Option.isSome_iff_exists.mp hs
    constructor
    · intro h
      obtain ⟨p, hp, hpk⟩ := List.mem_map.mp h
      obtain ⟨q, hq, hqp⟩ := List.mem_map.mp hp
      by_cases hqk : q.1 = k
      · left
        rw [← hpk, ← hqp, if_pos hqk]
      · right
        rw [← hpk, ← hqp, if_neg hqk]
        exact List.mem_map.mpr ⟨q, hq, rfl⟩
    · intro h
      rcases h with rfl | h
      · have : (k', w) ∈ m := lookup_mem hw
        refine List.mem_map.mpr ⟨(k', v), List.mem_map.mpr ⟨(k', w), this, by simp⟩, rfl⟩
      · obtain ⟨q, hq, hqk⟩ := List.mem_map.mp h
        by_cases hqk' : q.1 = k
        · refine List.mem_map.mpr ⟨(k, v), List.mem_map.mpr ⟨q, hq, by simp [hqk']⟩, ?_⟩
          simp [← hqk, hqk']
        · exact List.mem_map.mpr ⟨q, List.mem_map.mpr ⟨q, hq, by simp [hqk']⟩, hqk⟩
  · rw [if_neg hs, List.map_append]
    simp only [List.mem_append, List.map_cons, List.map_nil, List.mem_singleton]
    constructor
    · rintro (h | h)
      · exact Or.inr h
      · exact Or.inl h
    · rintro (h | h)
      · exact Or.inr h
      · exact Or.inl h

/-- Neighbor row after `setNeighbors`. -/
theorem getNeighbors_setNeighbors (et : SuperpixelEdgeTable) (t : Tag) (ns : List Tag)
    (u : Tag) :
    (et.setNeighbors t ns).getNeighbors u = if u = t then ns else et.getNeighbors u := by
  rw [SuperpixelEdgeTable.setNeighbors, SuperpixelEdgeTable.getNeighbors,
    SuperpixelEdgeTable.getNeighbors]
  simp only
  rw [lookup_alSet]
  by_cases h : u = t <;> simp [h]

/-- Neighbor row after `removeNeighbors`. -/
theorem getNeighbors_removeNeighbors (et : SuperpixelEdgeTable) (t u : Tag) :
    (et.removeNeighbors t).getNeighbors u = if u = t then [] else et.getNeighbors u := by
  rw [SuperpixelEdgeTable.removeNeighbors, SuperpixelEdgeTable.getNeighbors,
    SuperpixelEdgeTable.getNeighbors]
  simp only
  rw [lookup_alErase]
  by_cases h : u = t <;> simp [h]

/-- Clearing a cached strength leaves the adjacency rows unchanged. -/
theorem getNeighbors_eraseStrength (et : SuperpixelEdgeTable) (e : Tag × Tag) (u : Tag) :
    (et.eraseStrength e).getNeighbors u = et.getNeighbors u := rfl

/-- The strength-clearing fold over dst's neighbors leaves the adjacency
rows unchanged. -/
theorem getNeighbors_strengthFold (l : List Tag) (et : SuperpixelEdgeTable) (g : Tag → Tag × Tag)
    (u : Tag) :
    (l.foldl (fun et n => SuperpixelEdgeTable.eraseStrength et (g n)) et).getNeighbors u
      = et.getNeighbors u := by
  induction l generalizing et with
  | nil => rfl
  | cons n l ih => rw [List.foldl_cons, ih]; rfl

/-! ## The merge repair loop -/

/-- The repair step on the dst neighbor itself only clears the cached
strength. -/
theorem mergeRepairStep_dst (s d : Tag) (et : SuperpixelEdgeTable) :
    mergeRepairStep s d et d = some (et.eraseStrength (mkEdge s d)) := by
  rw [mergeRepairStep]
  simp

/-- The repair fold over the loser's neighbors: it succeeds when every
neighbor other than dst still lists src, leaves untouched rows unchanged,
appends to dst's row exactly the neighbors that did not already know dst,
and rewrites each neighbor's row by dropping src and appending dst when
dst was missing. -/
theorem mergeRepair_fold_spec (srcTag dstTag : Tag) (ns : List Tag)
    (et : SuperpixelEdgeTable) (hnodup : ns.Nodup)
    (hsrc : ∀ n ∈ ns, n ≠ dstTag → srcTag ∈ et.getNeighbors n) :
    ∃ et', ns.foldlM (mergeRepairStep srcTag dstTag) et = some et' ∧
      (∀ t, t ∉ ns → t ≠ dstTag → et'.getNeighbors t = et.getNeighbors t) ∧
      (et'.getNeighbors dstTag = et.getNeighbors dstTag ++
        ns.filter (fun n => n ≠ dstTag ∧
          dstTag ∉ (et.getNeighbors n).filter (fun x => x ≠ srcTag))) ∧
      (∀ n ∈ ns, n ≠ dstTag →
        et'.getNeighbors n = (et.getNeighbors n).filter (fun x => x ≠ srcTag) ++
          (if dstTag ∈ (et.getNeighbors n).filter (fun x => x ≠ srcTag)
           then [] else [dstTag])) := by
  induction ns generalizing et with
  | nil =>
    refine ⟨et, rfl, fun t _ _ => rfl, by simp, by simp⟩
  | cons n ns ih =>
    have hnodup' : ns.Nodup := hnodup.of_cons
    have hn_notmem : n ∉ ns := (List.nodup_cons.mp hnodup).1
    by_cases hnd : n = dstTag
    · subst hnd
      -- the dst iteration only clears a cached strength
      rw [List.foldlM_cons, mergeRepairStep_dst]
      set etA := et.eraseStrength (mkEdge srcTag n) with hetA
      have hrows : ∀ u, etA.getNeighbors u = et.getNeighbors u := fun u => rfl
      obtain ⟨et', hfold, ha, hb, hc⟩ := ih etA hnodup'
        (fun m hm hmd => by rw [hrows]; exact hsrc m (List.mem_cons_of_mem n hm) hmd)
      refine ⟨et', by exact hfold, ?_, ?_, ?_⟩
      · intro t ht htd
        exact ha t (fun hmem => ht (List.mem_cons_of_mem n hmem)) htd
      · rw [List.filter_cons_of_neg (by simp)]
        exact hb
      · intro m hm hmd
        rcases List.mem_cons.mp hm with rfl | hm'
        · exact absurd rfl hmd
        · exact hc m hm' hmd
    · have hsrc_n : srcTag ∈ et.getNeighbors n := hsrc n (List.mem_cons_self n ns) hnd
      rw [List.foldlM_cons]
      set others := (et.getNeighbors n).filter (fun x => x ≠ srcTag) with hothers
      by_cases hdm : dstTag ∈ others
      · -- dst already known to this neighbor: only n's row changes
        have hstep : mergeRepairStep srcTag dstTag et n
            = some ((et.eraseStrength (mkEdge srcTag n)).setNeighbors n others) := by
          rw [mergeRepairStep]
          rw [if_neg hnd]
          rw [if_pos (show srcTag ∈ (et.eraseStrength (mkEdge srcTag n)).getNeighbors n
            from hsrc_n)]
          rw [if_pos (show dstTag ∈ ((et.eraseStrength
            (mkEdge srcTag n)).getNeighbors n).filter (fun x => x ≠ srcTag) from hdm)]
          rfl
        rw [hstep]
        set etA := (et.eraseStrength (mkEdge srcTag n)).setNeighbors n others with hetA
        have hrowsA : ∀ u, u ≠ n → etA.getNeighbors u = et.getNeighbors u := by
          intro u hu
          rw [hetA, getNeighbors_setNeighbors, if_neg hu]
          rfl
        have hrowA_n : etA.getNeighbors n = others := by
          rw [hetA, getNeighbors_setNeighbors, if_pos rfl]
        obtain ⟨et', hfold, ha, hb, hc⟩ := ih etA hnodup' (fun m hm hmd => by
          rw [hrowsA m (fun h => hn_notmem (h ▸ hm))]
          exact hsrc m (List.mem_cons_of_mem n hm) hmd)
        refine ⟨et', by exact hfold, ?_, ?_, ?_⟩
        · intro t ht htd
          have htn : t ≠ n := fun h => ht (h ▸ List.mem_cons_self n ns)
          rw [ha t (fun hmem => ht (List.mem_cons_of_mem n hmem)) htd, hrowsA t htn]
        · rw [hb, hrowsA dstTag (Ne.symm hnd)]
          rw [List.filter_cons_of_neg (by
            simp [hnd, hdm]
            have h := List.mem_filter.mp hdm
            exact ⟨h.1, by simpa using h.2⟩)]
          congr 1
          apply List.filter_congr
          intro m hm
          have hmn : m ≠ n := fun h => hn_notmem (h ▸ hm)
          rw [hrowsA m hmn]
        · intro m hm hmd
          rcases List.mem_cons.mp hm with rfl | hm'
          · rw [ha m hn_notmem hmd, hrowA_n, hothers, if_pos hdm, List.append_nil]
          · have hmn : m ≠ n := fun h => hn_notmem (h ▸ hm')
            rw [hc m hm' hmd, hrowsA m hmn]
      · -- dst unknown to this neighbor: link dst and n both ways
        have hstep : mergeRepairStep srcTag dstTag et n
            = some ((((et.eraseStrength (mkEdge srcTag n)).setNeighbors dstTag
                (et.getNeighbors dstTag ++ [n])).setNeighbors n (others ++ [dstTag]))) := by
          rw [mergeRepairStep]
          rw [if_neg hnd]
          rw [if_pos (show srcTag ∈ (et.eraseStrength (mkEdge srcTag n)).getNeighbors n
            from hsrc_n)]
          rw [if_neg (show ¬ dstTag ∈ ((et.eraseStrength
            (mkEdge srcTag n)).getNeighbors n).filter (fun x => x ≠ srcTag) from hdm)]
          rfl
        rw [hstep]
        set etA := (((et.eraseStrength (mkEdge srcTag n)).setNeighbors dstTag
          (et.getNeighbors dstTag ++ [n])).setNeighbors n (others ++ [dstTag])) with hetA
        have hrowsA : ∀ u, u ≠ n → u ≠ dstTag → etA.getNeighbors u = et.getNeighbors u := by
          intro u hun hud
          rw [hetA, getNeighbors_setNeighbors, if_neg hun, getNeighbors_setNeighbors,
            if_neg hud]
          rfl
        have hrowA_n : etA.getNeighbors n = others ++ [dstTag] := by
          rw [hetA, getNeighbors_setNeighbors, if_pos rfl]
        have hrowA_d : etA.getNeighbors dstTag = et.getNeighbors dstTag ++ [n] := by
          rw [hetA, getNeighbors_setNeighbors, if_neg (Ne.symm hnd),
            getNeighbors_setNeighbors, if_pos rfl]
        obtain ⟨et', hfold, ha, hb, hc⟩ := ih etA hnodup' (fun m hm hmd => by
          rw [hrowsA m (fun h => hn_notmem (h ▸ hm)) hmd]
          exact hsrc m (List.mem_cons_of_mem n hm) hmd)
        refine ⟨et', by exact hfold, ?_, ?_, ?_⟩
        · intro t ht htd
          have htn : t ≠ n := fun h => ht (h ▸ List.mem_cons_self n ns)
          rw [ha t (fun hmem => ht (List.mem_cons_of_mem n hmem)) htd, hrowsA t htn htd]
        · rw [hb, hrowA_d]
          rw [List.filter_cons_of_pos (by
            simp [hnd, hdm]
            by_cases hds : dstTag = srcTag
            · exact Or.inr hds
            · refine Or.inl (fun hmem => hdm ?_)
              exact List.mem_filter.mpr ⟨hmem, by simpa using hds⟩)]
          rw [List.append_assoc, List.singleton_append]
          congr 2
          apply List.filter_congr
          intro m hm
          have hmn : m ≠ n := fun h => hn_notmem (h ▸ hm)
          by_cases hmd : m = dstTag
          · simp [hmd]
          · rw [hrowsA m hmn hmd]
        · intro m hm hmd
          rcases List.mem_cons.mp hm with rfl | hm'
          · rw [ha m hn_notmem hmd, hrowA_n, hothers, if_neg hdm]
          · have hmn : m ≠ n := fun h => hn_notmem (h ▸ hm')
            rw [hc m hm' hmd, hrowsA m hmn hmd]

/-! ## Key-set lemmas for the association lists -/

/-- A lookup succeeds exactly on present keys. -/
theorem lookup_isSome_iff_mem_keys {α : Type} (m : List (Tag × α)) (k : Tag) :
    (m.lookup k).isSome ↔ k ∈ m.map Prod.fst := by
  induction m with
  | nil => simp [List.lookup]
  | cons p m ih =>
    obtain ⟨pk, pv⟩ := p
    by_cases hk : k = pk
    · subst hk
      simp [List.lookup_cons]
    · simp only [List.lookup_cons, tag_beq_false hk, List.map_cons, List.mem_cons]
      rw [ih]
      constructor
      · exact Or.inr
      · rintro (h | h)
        · exact absurd h hk
        · exact h

/-- Every entry after an update-or-insert is an old entry or the new pair. -/
theorem alSet_entry_cases {α : Type} {m : List (Tag × α)} {k : Tag} {v : α} {p : Tag × α}
    (h : p ∈ alSet m k v) : p ∈ m ∨ p = (k, v) := by
  rw [alSet] at h
  by_cases hs : (m.lookup k).isSome
  · rw [if_pos hs] at h
    obtain ⟨q, hq, hqp⟩ := List.mem_map.mp h
    by_cases hqk : q.1 = k
    · right
      rw [← hqp, if_pos hqk]
    · left
      rw [← hqp, if_neg hqk]
      exact hq
  · rw [if_neg hs] at h
    rcases List.mem_append.mp h with h | h
    · exact Or.inl h
    · exact Or.inr (List.mem_singleton.mp h)

/-- An update-or-insert keeps the key list duplicate-free. -/
theorem keys_alSet_nodup {α : Type} {m : List (Tag × α)} (k : Tag) (v : α)
    (h : (m.map Prod.fst).Nodup) : ((alSet m k v).map Prod.fst).Nodup := by
  rw [alSet]
  by_cases hs : (m.lookup k).isSome
  · rw [if_pos hs]
    have : (m.map (fun p => if p.1 = k then (k, v) else p)).map Prod.fst = m.map Prod.fst := by
      rw [List.map_map]
      apply List.map_congr_left
      intro p _
      by_cases hp : p.1 = k <;> simp [hp]
    rw [this]
    exact h
  · rw [if_neg hs, List.map_append]
    simp only [List.map_cons, List.map_nil]
    rw [List.nodup_append]
    refine ⟨h, List.nodup_singleton k, ?_⟩
    intro x hx
    simp only [List.mem_singleton]
    intro hxk
    subst hxk
    exact hs ((lookup_isSome_iff_mem_keys m x).mpr hx)

/-- Erasing a key keeps the key list duplicate-free. -/
theorem keys_alErase_nodup {α : Type} {m : List (Tag × α)} (k : Tag)
    (h : (m.map Prod.fst).Nodup) : ((alErase m k).map Prod.fst).Nodup := by
  have hsub : (alErase m k).Sublist m := List.filter_sublist m
  exact (hsub.map Prod.fst).nodup h

/-- With duplicate-free keys an entry is recovered by lookup. -/
theorem mem_lookup_of_keysNodup {α : Type} {m : List (Tag × α)} {p : Tag × α}
    (hnodup : (m.map Prod.fst).Nodup) (h : p ∈ m) : m.lookup p.1 = some p.2 := by
  induction m with
  | nil => exact absurd h (List.not_mem_nil p)
  | cons q m ih =>
    obtain ⟨qk, qv⟩ := q
    rcases List.mem_cons.mp h with rfl | h'
    · simp [List.lookup_cons]
    · have hq : p.1 ≠ qk := by
        intro hcon
        have : qk ∈ m.map Prod.fst := List.mem_map.mpr ⟨p, h', hcon⟩
        exact (List.nodup_cons.mp (by simpa using hnodup)).1 this
      simp only [List.lookup_cons, tag_beq_false hq]
      exact ih (List.nodup_cons.mp (by simpa using hnodup)).2 h'

/-! ## Function-level consequences of well-formedness -/

/-- Symmetry of the adjacency relation, read through `neighborsOf`. -/
theorem WF.symmFn {st : SuperpixelImageState} (hwf : WF st) {t n : Tag}
    (h : n ∈ neighborsOf st t) : t ∈ neighborsOf st n := by
  rw [neighborsOf, SuperpixelEdgeTable.getNeighbors] at h
  cases hrow : st.edgeTable.neighborsMap.lookup t with
  | none => rw [hrow] at h; simp at h
  | some row =>
    rw [hrow] at h
    simp only [Option.getD_some] at h
    exact hwf.symm (t, row) (lookup_mem hrow) n h

/-- Irreflexivity of the adjacency relation, read through `neighborsOf`. -/
theorem WF.noSelfFn {st : SuperpixelImageState} (hwf : WF st) (t : Tag) :
    t ∉ neighborsOf st t := by
  rw [neighborsOf, SuperpixelEdgeTable.getNeighbors]
  cases hrow : st.edgeTable.neighborsMap.lookup t with
  | none => simp
  | some row =>
    simp only [Option.getD_some]
    exact hwf.noSelf (t, row) (lookup_mem hrow)

/-- Each neighbor row is duplicate-free, read through `neighborsOf`. -/
theorem WF.rowNodupFn {st : SuperpixelImageState} (hwf : WF st) (t : Tag) :
    (neighborsOf st t).Nodup := by
  rw [neighborsOf, SuperpixelEdgeTable.getNeighbors]
  cases hrow : st.edgeTable.neighborsMap.lookup t with
  | none => simp
  | some row =>
    simp only [Option.getD_some]
    exact hwf.rowNodup (t, row) (lookup_mem hrow)

/-- Neighbor entries are active, read through `neighborsOf`. -/
theorem WF.entriesActiveFn {st : SuperpixelImageState} (hwf : WF st) {t n : Tag}
    (h : n ∈ neighborsOf st t) : n ∈ st.superpixels := by
  rw [neighborsOf, SuperpixelEdgeTable.getNeighbors] at h
  cases hrow : st.edgeTable.neighborsMap.lookup t with
  | none => rw [hrow] at h; simp at h
  | some row =>
    rw [hrow] at h
    simp only [Option.getD_some] at h
    exact hwf.rowEntriesActive (t, row) (lookup_mem hrow) n h

/-! ## Characterization of `mergeTail` -/

/-- The full effect of the merge body on a well-formed state: it
succeeds, the loser leaves the active list, the owning map and the
adjacency table are rewritten as described. -/
theorem mergeTail_spec (st : SuperpixelImageState) (src dst : Superpixel)
    (hwf : WF st)
    (hlookS : st.tagToSuperpixelMap.lookup src.tag = some src)
    (hlookD : st.tagToSuperpixelMap.lookup dst.tag = some dst)
    (hne : src.tag ≠ dst.tag)
    (hadjS : src.tag ∈ neighborsOf st dst.tag) :
    ∃ st', mergeTail st src dst = some st' ∧
      st'.superpixels = st.superpixels.erase src.tag ∧
      getSuperpixelPtr st' src.tag = none ∧
      (∃ sp, getSuperpixelPtr st' dst.tag = some sp ∧ sp.tag = dst.tag ∧
        sp.coords = dst.coords ++ src.coords ∧
        sp.mergedEdgeWeights = dst.mergedEdgeWeights ++ src.mergedEdgeWeights ∧
        sp.unmergedEdgeWeights = dst.unmergedEdgeWeights ++ src.unmergedEdgeWeights) ∧
      (∀ t, t ≠ src.tag → t ≠ dst.tag →
        getSuperpixelPtr st' t = getSuperpixelPtr st t) ∧
      neighborsOf st' src.tag = [] ∧
      neighborsOf st' dst.tag =
        (neighborsOf st dst.tag).filter (fun x => x ≠ src.tag) ++
          (neighborsOf st src.tag).filter (fun n => n ≠ dst.tag ∧
            dst.tag ∉ (neighborsOf st n).filter (fun x => x ≠ src.tag)) ∧
      (∀ n ∈ neighborsOf st src.tag, n ≠ dst.tag →
        neighborsOf st' n = (neighborsOf st n).filter (fun x => x ≠ src.tag) ++
          (if dst.tag ∈ (neighborsOf st n).filter (fun x => x ≠ src.tag) then []
           else [dst.tag])) ∧
      (∀ t, t ∉ neighborsOf st src.tag → t ≠ dst.tag → t ≠ src.tag →
        neighborsOf st' t = neighborsOf st t) := by
  have hsrc_mem : src.tag ∈ st.superpixels :=
    hwf.keysActive (src.tag, src) (lookup_mem hlookS)
  -- the repair fold over the loser's neighbors
  have hrow1 : ∀ u, ((st.edgeTable.getNeighbors dst.tag).foldl
      (fun et n => SuperpixelEdgeTable.eraseStrength et (mkEdge dst.tag n))
      st.edgeTable).getNeighbors u = neighborsOf st u :=
    fun u => getNeighbors_strengthFold _ _ _ u
  set et1 := (st.edgeTable.getNeighbors dst.tag).foldl
      (fun et n => SuperpixelEdgeTable.eraseStrength et (mkEdge dst.tag n))
      st.edgeTable with het1
  set et2 := et1.setNeighbors dst.tag
      ((st.edgeTable.getNeighbors dst.tag).filter (fun n => n ≠ src.tag)) with het2
  have hrow2 : ∀ u, et2.getNeighbors u
      = if u = dst.tag then (neighborsOf st dst.tag).filter (fun x => x ≠ src.tag)
        else neighborsOf st u := by
    intro u
    rw [het2, getNeighbors_setNeighbors]
    by_cases hu : u = dst.tag
    · rw [if_pos hu, if_pos hu]
      rfl
    · rw [if_neg hu, if_neg hu, hrow1]
  have hns : et2.getNeighbors src.tag = neighborsOf st src.tag := by
    rw [hrow2, if_neg hne]
  obtain ⟨et3, hfold, ha, hb, hc⟩ := mergeRepair_fold_spec src.tag dst.tag
    (et2.getNeighbors src.tag) et2
    (by rw [hns]; exact hwf.rowNodupFn src.tag)
    (by
      intro n hnmem hnd
      rw [hrow2, if_neg hnd]
      rw [hns] at hnmem
      exact hwf.symmFn hnmem)
  -- the merged state
  refine ⟨⟨alErase (alSet (alSet (alSet st.tagToSuperpixelMap dst.tag
      { dst with coords := dst.coords ++ src.coords }) src.tag
      { src with coords := [] }) dst.tag
      { dst with
        coords := dst.coords ++ src.coords
        mergedEdgeWeights := dst.mergedEdgeWeights ++ src.mergedEdgeWeights
        unmergedEdgeWeights := dst.unmergedEdgeWeights ++ src.unmergedEdgeWeights })
      src.tag,
    st.superpixels.erase src.tag,
    et3.removeNeighbors src.tag⟩, ?_, rfl, ?_, ?_, ?_, ?_, ?_, ?_, ?_⟩
  · -- the merge body takes exactly this path
    rw [mergeTail]
    simp only
    rw [if_pos hsrc_mem]
    rw [if_pos (show src.tag ∈ st.edgeTable.getNeighbors dst.tag from hadjS)]
    rw [← het1, ← het2, hfold]
  · -- the loser is gone from the owning map
    rw [getSuperpixelPtr]
    simp only
    rw [lookup_alErase, if_pos rfl]
  · -- the survivor holds the merged record
    refine ⟨{ dst with
        coords := dst.coords ++ src.coords
        mergedEdgeWeights := dst.mergedEdgeWeights ++ src.mergedEdgeWeights
        unmergedEdgeWeights := dst.unmergedEdgeWeights ++ src.unmergedEdgeWeights },
      ?_, rfl, rfl, rfl, rfl⟩
    rw [getSuperpixelPtr]
    simp only
    rw [lookup_alErase, if_neg (Ne.symm hne), lookup_alSet, if_pos rfl]
  · -- other regions are untouched in the owning map
    intro t hts htd
    rw [getSuperpixelPtr, getSuperpixelPtr]
    simp only
    rw [lookup_alErase, if_neg hts, lookup_alSet, if_neg htd, lookup_alSet,
      if_neg hts, lookup_alSet, if_neg htd]
  · -- the loser's row is gone
    rw [neighborsOf]
    simp only
    rw [getNeighbors_removeNeighbors, if_pos rfl]
  · -- the survivor's final row
    rw [neighborsOf]
    simp only
    rw [getNeighbors_removeNeighbors, if_neg (Ne.symm hne), hb, hrow2, if_pos rfl, hns]
    congr 1
    apply List.filter_congr
    intro n hn
    by_cases hnd : n = dst.tag
    · simp [hnd]
    · rw [hrow2, if_neg hnd]
  · -- the loser's other neighbors
    intro n hnmem hnd
    have hnsrc : n ≠ src.tag := by
      intro hcon
      exact hwf.noSelfFn src.tag (hcon ▸ hnmem)
    rw [neighborsOf]
    simp only
    rw [getNeighbors_removeNeighbors, if_neg hnsrc]
    rw [hc n (by rw [hns]; exact hnmem) hnd, hrow2, if_neg hnd]
  · -- all other rows are untouched
    intro t htmem htd hts
    rw [neighborsOf]
    simp only
    rw [getNeighbors_removeNeighbors, if_neg hts]
    rw [ha t (by rw [hns]; exact htmem) htd, hrow2, if_neg htd]

/-- After a successful merge body every adjacency row is duplicate-free. -/
theorem mergeTail_rows_nodup (st st' : SuperpixelImageState) (src dst : Superpixel)
    (hwf : WF st)
    (hlookS : st.tagToSuperpixelMap.lookup src.tag = some src)
    (hlookD : st.tagToSuperpixelMap.lookup dst.tag = some dst)
    (hne : src.tag ≠ dst.tag)
    (hadjS : src.tag ∈ neighborsOf st dst.tag)
    (hm : mergeTail st src dst = some st') :
    ∀ t, (neighborsOf st' t).Nodup := by
  obtain ⟨st0, hm0, hsps, hmsrc, hmdst, hmoth, hrsrc, hrdst, hrn, hroth⟩ :=
    mergeTail_spec st src dst hwf hlookS hlookD hne hadjS
  rw [hm0] at hm
  have hst : st0 = st' := Option.some_injective _ hm
  subst hst
  intro t
  by_cases hts : t = src.tag
  · rw [hts, hrsrc]
    exact List.nodup_nil
  · by_cases htd : t = dst.tag
    · rw [htd, hrdst, List.nodup_append]
      refine ⟨(hwf.rowNodupFn dst.tag).filter _, (hwf.rowNodupFn src.tag).filter _, ?_⟩
      intro x hx1 hx2
      have hx1' := List.mem_filter.mp hx1
      have hx2' := List.mem_filter.mp hx2
      have hxs : x ≠ src.tag := by simpa using hx1'.2
      have hdx : dst.tag ∈ neighborsOf st x := hwf.symmFn hx1'.1
      have hcond := hx2'.2
      simp only [decide_eq_true_eq] at hcond
      exact hcond.2 (List.mem_filter.mpr ⟨hdx, by simpa using Ne.symm hne⟩)
    · by_cases htn : t ∈ neighborsOf st src.tag
      · rw [hrn t htn htd]
        by_cases hdm : dst.tag ∈ (neighborsOf st t).filter (fun x => x ≠ src.tag)
        · rw [if_pos hdm, List.append_nil]
          exact (hwf.rowNodupFn t).filter _
        · rw [if_neg hdm, List.nodup_append]
          refine ⟨(hwf.rowNodupFn t).filter _, List.nodup_singleton _, ?_⟩
          intro x hx1 hx2
          rw [List.mem_singleton] at hx2
          subst hx2
          exact hdm hx1
      · rw [hroth t htn htd hts]
        exact hwf.rowNodupFn t

/-- CLAIM C1.  On a well-formed store, merging two distinct live adjacent
regions succeeds; the region with the larger coordinate count survives
(the first argument on a tie); afterwards the loser's id resolves to
absent, the survivor's coordinate count is the sum of the two pre-merge
counts, every former neighbor of the loser other than the survivor is a
neighbor of the survivor and vice versa, and no adjacency row contains a
duplicate entry. -/
theorem mergeEdge_spec (st : SuperpixelImageState) (a b : Tag)
    (hwf : WF st) (hab : a ≠ b)
    (ha : (getSuperpixelPtr st a).isSome) (hb : (getSuperpixelPtr st b).isSome)
    (hadj : b ∈ neighborsOf st a) :
    ∃ st', mergeEdge st a b = some st' ∧
      (let dstTag := if sizeOfTag st b ≤ sizeOfTag st a then a else b
       let srcTag := if sizeOfTag st b ≤ sizeOfTag st a then b else a
       getSuperpixelPtr st' srcTag = none ∧
       (∃ sp, getSuperpixelPtr st' dstTag = some sp ∧
         sp.coords.length = sizeOfTag st a + sizeOfTag st b) ∧
       (∀ n ∈ neighborsOf st srcTag, n ≠ dstTag →
         n ∈ neighborsOf st' dstTag ∧ dstTag ∈ neighborsOf st' n) ∧
       (∀ t, (neighborsOf st' t).Nodup)) := by
  obtain ⟨spA, hlookA⟩ := Option.isSome_iff_exists.mp ha
  obtain ⟨spB, hlookB⟩ := Option.isSome_iff_exists.mp hb
  have hlookA' : st.tagToSuperpixelMap.lookup a = some spA := hlookA
  have hlookB' : st.tagToSuperpixelMap.lookup b = some spB := hlookB
  have hTagA : spA.tag = a := hwf.tagMatch (a, spA) (lookup_mem hlookA')
  have hTagB : spB.tag = b := hwf.tagMatch (b, spB) (lookup_mem hlookB')
  subst hTagA
  subst hTagB
  have hSzA : sizeOfTag st spA.tag = spA.coords.length := by
    simp [sizeOfTag, hlookA']
  have hSzB : sizeOfTag st spB.tag = spB.coords.length := by
    simp [sizeOfTag, hlookB']
  have hmerge : mergeEdge st spA.tag spB.tag
      = if spB.coords.length ≤ spA.coords.length then mergeTail st spB spA
        else mergeTail st spA spB := by
    rw [mergeEdge, if_neg hab, hlookA', hlookB']
  by_cases hcmp : sizeOfTag st spB.tag ≤ sizeOfTag st spA.tag
  · have hcmp' : spB.coords.length ≤ spA.coords.length := by
      rw [← hSzA, ← hSzB]; exact hcmp
    obtain ⟨st', hm0, hsps, hmsrc, ⟨sp, hmdst, hsptag, hspc, _, _⟩, hmoth, hrsrc, hrdst,
      hrn, hroth⟩ := mergeTail_spec st spB spA hwf hlookB' hlookA' (Ne.symm hab) hadj
    refine ⟨st', by rw [hmerge, if_pos hcmp', hm0], ?_⟩
    simp only [if_pos hcmp]
    refine ⟨hmsrc, ⟨sp, hmdst, by rw [hspc, List.length_append, hSzA, hSzB, Nat.add_comm]⟩,
      ?_, ?_⟩
    · intro n hn hnd
      constructor
      · rw [hrdst]
        by_cases hdm : spA.tag ∈ (neighborsOf st n).filter (fun x => x ≠ spB.tag)
        · apply List.mem_append_left
          have hna : n ∈ neighborsOf st spA.tag := hwf.symmFn (List.mem_filter.mp hdm).1
          refine List.mem_filter.mpr ⟨hna, ?_⟩
          simp only [decide_eq_true_eq]
          intro hcon
          exact hwf.noSelfFn spB.tag (hcon ▸ hn)
        · apply List.mem_append_right
          refine List.mem_filter.mpr ⟨hn, ?_⟩
          simp only [decide_eq_true_eq]
          exact ⟨hnd, hdm⟩
      · rw [hrn n hn hnd]
        by_cases hdm : spA.tag ∈ (neighborsOf st n).filter (fun x => x ≠ spB.tag)
        · rw [if_pos hdm, List.append_nil]
          exact hdm
        · rw [if_neg hdm]
          exact List.mem_append_right _ (List.mem_singleton.mpr rfl)
    · exact mergeTail_rows_nodup st st' spB spA hwf hlookB' hlookA' (Ne.symm hab) hadj hm0
  · have hcmp' : ¬ spB.coords.length ≤ spA.coords.length := by
      rw [← hSzA, ← hSzB]; exact hcmp
    have hadjBA : spA.tag ∈ neighborsOf st spB.tag := hwf.symmFn hadj
    obtain ⟨st', hm0, hsps, hmsrc, ⟨sp, hmdst, hsptag, hspc, _, _⟩, hmoth, hrsrc, hrdst,
      hrn, hroth⟩ := mergeTail_spec st spA spB hwf hlookA' hlookB' hab hadjBA
    refine ⟨st', by rw [hmerge, if_neg hcmp', hm0], ?_⟩
    simp only [if_neg hcmp]
    refine ⟨hmsrc, ⟨sp, hmdst,
      by rw [hspc, List.length_append, hSzA, hSzB, Nat.add_comm]⟩, ?_, ?_⟩
    · intro n hn hnd
      constructor
      · rw [hrdst]
        by_cases hdm : spB.tag ∈ (neighborsOf st n).filter (fun x => x ≠ spA.tag)
        · apply List.mem_append_left
          have hnb : n ∈ neighborsOf st spB.tag := hwf.symmFn (List.mem_filter.mp hdm).1
          refine List.mem_filter.mpr ⟨hnb, ?_⟩
          simp only [decide_eq_true_eq]
          intro hcon
          exact hwf.noSelfFn spA.tag (hcon ▸ hn)
        · apply List.mem_append_right
          refine List.mem_filter.mpr ⟨hn, ?_⟩
          simp only [decide_eq_true_eq]
          exact ⟨hnd, hdm⟩
      · rw [hrn n hn hnd]
        by_cases hdm : spB.tag ∈ (neighborsOf st n).filter (fun x => x ≠ spA.tag)
        · rw [if_pos hdm, List.append_nil]
          exact hdm
        · rw [if_neg hdm]
          exact List.mem_append_right _ (List.mem_singleton.mpr rfl)
    · exact mergeTail_rows_nodup st st' spA spB hwf hlookA' hlookB' hab hadjBA hm0

/-- The two-region test store is well-formed. -/
theorem twoRegionState_wf : WF twoRegionState := by
  constructor <;> decide

/-- Witness for C1: merging regions 1 and 2 of the two-region store. -/
theorem mergeEdge_spec_witness :
    ∃ st', mergeEdge twoRegionState 1 2 = some st' ∧
      (let dstTag := if sizeOfTag twoRegionState 2 ≤ sizeOfTag twoRegionState 1
        then 1 else 2
       let srcTag := if sizeOfTag twoRegionState 2 ≤ sizeOfTag twoRegionState 1
        then 2 else 1
       getSuperpixelPtr st' srcTag = none ∧
       (∃ sp, getSuperpixelPtr st' dstTag = some sp ∧
         sp.coords.length = sizeOfTag twoRegionState 1 + sizeOfTag twoRegionState 2) ∧
       (∀ n ∈ neighborsOf twoRegionState srcTag, n ≠ dstTag →
         n ∈ neighborsOf st' dstTag ∧ dstTag ∈ neighborsOf st' n) ∧
       (∀ t, (neighborsOf st' t).Nodup)) :=
  mergeEdge_spec twoRegionState 1 2 twoRegionState_wf (by decide) (by decide) (by decide)
    (by decide)

/-- A successful merge body implies its two membership guards held. -/
theorem mergeTail_mem_facts {st st' : SuperpixelImageState} {src dst : Superpixel}
    (hm : mergeTail st src dst = some st') :
    src.tag ∈ st.superpixels ∧ src.tag ∈ neighborsOf st dst.tag := by
  simp only [mergeTail] at hm
  split at hm
  · split at hm
    · exact ⟨by assumption, by assumption⟩
    · exact absurd hm (by simp)
  · exact absurd hm (by simp)

/-- The merge body never changes the total coordinate count. -/
theorem mergeTail_total_coords (st st' : SuperpixelImageState) (src dst : Superpixel)
    (hwf : WF st)
    (hlookS : st.tagToSuperpixelMap.lookup src.tag = some src)
    (hlookD : st.tagToSuperpixelMap.lookup dst.tag = some dst)
    (hne : src.tag ≠ dst.tag)
    (hm : mergeTail st src dst = some st') :
    totalCoords st' = totalCoords st := by
  have hadjS : src.tag ∈ neighborsOf st dst.tag := (mergeTail_mem_facts hm).2
  obtain ⟨st0, hm0, hsps, hmsrc, ⟨sp, hmdst, hsptag, hspc, _, _⟩, hmoth, _, _, _, _⟩ :=
    mergeTail_spec st src dst hwf hlookS hlookD hne hadjS
  rw [hm0] at hm
  have hst : st0 = st' := Option.some_injective _ hm
  subst hst
  have hnodup : st.superpixels.Nodup := hwf.sorted.nodup
  have hsrcmem : src.tag ∈ st.superpixels := hwf.keysActive _ (lookup_mem hlookS)
  have hdstmem : dst.tag ∈ st.superpixels := hwf.keysActive _ (lookup_mem hlookD)
  have hdstmem' : dst.tag ∈ st.superpixels.erase src.tag :=
    (List.Nodup.mem_erase_iff hnodup).mpr ⟨Ne.symm hne, hdstmem⟩
  have hszdst0 : sizeOfTag st0 dst.tag = dst.coords.length + src.coords.length := by
    unfold sizeOfTag
    rw [show st0.tagToSuperpixelMap.lookup dst.tag = some sp from hmdst]
    simp [hspc]
  have hszdst : sizeOfTag st dst.tag = dst.coords.length := by
    unfold sizeOfTag
    rw [hlookD]
    rfl
  have hszsrc : sizeOfTag st src.tag = src.coords.length := by
    unfold sizeOfTag
    rw [hlookS]
    rfl
  have hrest : ∀ t ∈ (st.superpixels.erase src.tag).erase dst.tag,
      sizeOfTag st0 t = sizeOfTag st t := by
    intro t ht
    have ht1 : t ∈ st.superpixels.erase src.tag := List.mem_of_mem_erase ht
    have htd : t ≠ dst.tag := ((hnodup.erase src.tag).mem_erase_iff.mp ht).1
    have hts : t ≠ src.tag := ((hnodup.mem_erase_iff).mp ht1).1
    unfold sizeOfTag
    rw [show st0.tagToSuperpixelMap.lookup t = st.tagToSuperpixelMap.lookup t from
      hmoth t hts htd]
  have hperm1 : st.superpixels.Perm (src.tag :: st.superpixels.erase src.tag) :=
    List.perm_cons_erase hsrcmem
  have hperm2 : (st.superpixels.erase src.tag).Perm
      (dst.tag :: (st.superpixels.erase src.tag).erase dst.tag) :=
    List.perm_cons_erase hdstmem'
  calc totalCoords st0
      = ((st.superpixels.erase src.tag).map (fun t => sizeOfTag st0 t)).sum := by
        unfold totalCoords
        rw [hsps]
    _ = sizeOfTag st0 dst.tag
        + (((st.superpixels.erase src.tag).erase dst.tag).map
            (fun t => sizeOfTag st0 t)).sum := by
        rw [(hperm2.map (fun t => sizeOfTag st0 t)).sum_eq]
        simp
    _ = dst.coords.length + src.coords.length
        + (((st.superpixels.erase src.tag).erase dst.tag).map
            (fun t => sizeOfTag st t)).sum := by
        rw [hszdst0, List.map_congr_left hrest]
    _ = sizeOfTag st src.tag + (sizeOfTag st dst.tag
        + (((st.superpixels.erase src.tag).erase dst.tag).map
            (fun t => sizeOfTag st t)).sum) := by
        rw [hszdst, hszsrc]
        omega
    _ = sizeOfTag st src.tag
        + ((st.superpixels.erase src.tag).map (fun t => sizeOfTag st t)).sum := by
        rw [(hperm2.map (fun t => sizeOfTag st t)).sum_eq]
        simp
    _ = totalCoords st := by
        unfold totalCoords
        rw [(hperm1.map (fun t => sizeOfTag st t)).sum_eq]
        simp

/-- CLAIM C3.  On a well-formed store, every successful merge leaves the
total coordinate count summed over the active regions unchanged: pixels
are never created or dropped. -/
theorem merge_preserves_total_coords (st st' : SuperpixelImageState) (a b : Tag)
    (hwf : WF st) (hm : mergeEdge st a b = some st') :
    totalCoords st' = totalCoords st := by
  rw [mergeEdge] at hm
  split at hm
  · exact absurd hm (by simp)
  · rename_i hab
    split at hm
    · rename_i spA spB hA hB
      have hTagA : spA.tag = a := hwf.tagMatch (a, spA) (lookup_mem hA)
      have hTagB : spB.tag = b := hwf.tagMatch (b, spB) (lookup_mem hB)
      subst hTagA
      subst hTagB
      split at hm
      · exact mergeTail_total_coords st st' spB spA hwf hB hA (Ne.symm hab) hm
      · exact mergeTail_total_coords st st' spA spB hwf hA hB hab hm
    · exact absurd hm (by simp)

/-- Witness for C3: the two-region merge keeps the three pixels. -/
theorem merge_preserves_total_coords_witness :
    ∃ st', mergeEdge twoRegionState 1 2 = some st' ∧
      totalCoords st' = totalCoords twoRegionState := by
  have h : (mergeEdge twoRegionState 1 2).isSome := by decide
  obtain ⟨st', hst'⟩ := Option.isSome_iff_exists.mp h
  exact ⟨st', hst',
    merge_preserves_total_coords twoRegionState st' 1 2 twoRegionState_wf hst'⟩

/-- The strength-clearing fold never touches the adjacency map itself. -/
theorem neighborsMap_strengthFold (l : List Tag) (et : SuperpixelEdgeTable)
    (g : Tag → Tag × Tag) :
    (l.foldl (fun et n => SuperpixelEdgeTable.eraseStrength et (g n)) et).neighborsMap
      = et.neighborsMap := by
  induction l generalizing et with
  | nil => rfl
  | cons n l ih => rw [List.foldl_cons, ih]; rfl

/-- Entries surviving a key erase are old entries with a different key. -/
theorem alErase_entry {α : Type} {m : List (Tag × α)} {k : Tag} {p : Tag × α}
    (h : p ∈ alErase m k) : p ∈ m ∧ p.1 ≠ k := by
  have h' := List.mem_filter.mp h
  exact ⟨h'.1, by simpa using h'.2⟩

/-- One repair step keeps the adjacency keys duplicate-free. -/
theorem mergeRepairStep_keysNodup {s d n : Tag} {et et' : SuperpixelEdgeTable}
    (h : mergeRepairStep s d et n = some et')
    (hn : (et.neighborsMap.map Prod.fst).Nodup) :
    (et'.neighborsMap.map Prod.fst).Nodup := by
  simp only [mergeRepairStep] at h
  split at h
  · injection h with h
    subst h
    exact hn
  · split at h
    · split at h
      · injection h with h
        subst h
        exact keys_alSet_nodup _ _ hn
      · injection h with h
        subst h
        exact keys_alSet_nodup _ _ (keys_alSet_nodup _ _ hn)
    · exact absurd h (by simp)

/-- One repair step can only add the keys of the visited neighbor and of
dst to the adjacency map. -/
theorem mergeRepairStep_keys {s d n : Tag} {et et' : SuperpixelEdgeTable}
    (h : mergeRepairStep s d et n = some et') (k : Tag)
    (hk : k ∈ et'.neighborsMap.map Prod.fst) :
    k ∈ et.neighborsMap.map Prod.fst ∨ k = n ∨ k = d := by
  simp only [mergeRepairStep] at h
  split at h
  · injection h with h
    subst h
    exact Or.inl hk
  · split at h
    · split at h
      · injection h with h
        subst h
        rcases (mem_keys_alSet _ _ _ k).mp hk with rfl | hk'
        · exact Or.inr (Or.inl rfl)
        · exact Or.inl hk'
      · injection h with h
        subst h
        rcases (mem_keys_alSet _ _ _ k).mp hk with rfl | hk'
        · exact Or.inr (Or.inl rfl)
        · rcases (mem_keys_alSet _ _ _ k).mp hk' with rfl | hk''
          · exact Or.inr (Or.inr rfl)
          · exact Or.inl hk''
    · exact absurd h (by simp)

/-- The repair fold keeps the adjacency keys duplicate-free. -/
theorem mergeRepair_fold_keysNodup (s d : Tag) :
    ∀ (ns : List Tag) (et et' : SuperpixelEdgeTable),
      ns.foldlM (mergeRepairStep s d) et = some et' →
      (et.neighborsMap.map Prod.fst).Nodup →
      (et'.neighborsMap.map Prod.fst).Nodup := by
  intro ns
  induction ns with
  | nil =>
    intro et et' h hn
    rw [List.foldlM_nil] at h
    injection h with h
    subst h
    exact hn
  | cons n ns ih =>
    intro et et' h hn
    rw [List.foldlM_cons] at h
    obtain ⟨etm, hstep, hrest⟩ := Option.bind_eq_some.mp h
    exact ih etm et' hrest (mergeRepairStep_keysNodup hstep hn)

/-- Keys after the repair fold: old keys, visited neighbors, or dst. -/
theorem mergeRepair_fold_keys (s d : Tag) :
    ∀ (ns : List Tag) (et et' : SuperpixelEdgeTable),
      ns.foldlM (mergeRepairStep s d) et = some et' →
      ∀ k, k ∈ et'.neighborsMap.map Prod.fst →
        k ∈ et.neighborsMap.map Prod.fst ∨ k ∈ ns ∨ k = d := by
  intro ns
  induction ns with
  | nil =>
    intro et et' h k hk
    rw [List.foldlM_nil] at h
    injection h with h
    subst h
    exact Or.inl hk
  | cons n ns ih =>
    intro et et' h k hk
    rw [List.foldlM_cons] at h
    obtain ⟨etm, hstep, hrest⟩ := Option.bind_eq_some.mp h
    rcases ih etm et' hrest k hk with h1 | h2 | h3
    · rcases mergeRepairStep_keys hstep k h1 with ha | hb | hc
      · exact Or.inl ha
      · exact Or.inr (Or.inl (hb ▸ List.mem_cons_self n ns))
      · exact Or.inr (Or.inr hc)
    · exact Or.inr (Or.inl (List.mem_cons_of_mem n h2))
    · exact Or.inr (Or.inr h3)

/-- The merge body preserves the structural invariant. -/
theorem mergeTail_WF (st st' : SuperpixelImageState) (src dst : Superpixel)
    (hwf : WF st)
    (hlookS : st.tagToSuperpixelMap.lookup src.tag = some src)
    (hlookD : st.tagToSuperpixelMap.lookup dst.tag = some dst)
    (hne : src.tag ≠ dst.tag)
    (hm : mergeTail st src dst = some st') :
    WF st' := by
  have hfacts := mergeTail_mem_facts hm
  have hsrc_mem : src.tag ∈ st.superpixels := hfacts.1
  have hadjS : src.tag ∈ neighborsOf st dst.tag := hfacts.2
  have hnodup : st.superpixels.Nodup := hwf.sorted.nodup
  have hdst_mem : dst.tag ∈ st.superpixels := hwf.keysActive _ (lookup_mem hlookD)
  obtain ⟨st0, hm0, hsps, hmsrc, ⟨sp, hmdst, hsptag, hspc, _, _⟩, hmoth, hrsrc, hrdst,
    hrn, hroth⟩ := mergeTail_spec st src dst hwf hlookS hlookD hne hadjS
  have hst : st0 = st' := Option.some_injective _ (hm0.symm.trans hm)
  subst hst
  -- symbolic re-execution of the merge body, to expose the components
  have hexec := hm0
  rw [mergeTail] at hexec
  simp only at hexec
  rw [if_pos hsrc_mem] at hexec
  rw [if_pos (show src.tag ∈ st.edgeTable.getNeighbors dst.tag from hadjS)] at hexec
  set et1 := (st.edgeTable.getNeighbors dst.tag).foldl
      (fun et n => SuperpixelEdgeTable.eraseStrength et (mkEdge dst.tag n))
      st.edgeTable with het1
  set et2 := et1.setNeighbors dst.tag
      ((st.edgeTable.getNeighbors dst.tag).filter (fun n => n ≠ src.tag)) with het2
  have hrow2 : ∀ u, et2.getNeighbors u
      = if u = dst.tag then (neighborsOf st dst.tag).filter (fun x => x ≠ src.tag)
        else neighborsOf st u := by
    intro u
    rw [het2, getNeighbors_setNeighbors]
    by_cases hu : u = dst.tag
    · rw [if_pos hu, if_pos hu]
      rfl
    · rw [if_neg hu, if_neg hu, het1, getNeighbors_strengthFold]
      rfl
  have hns : et2.getNeighbors src.tag = neighborsOf st src.tag := by
    rw [hrow2, if_neg hne]
  obtain ⟨et3, hfold, _, _, _⟩ := mergeRepair_fold_spec src.tag dst.tag
    (et2.getNeighbors src.tag) et2
    (by rw [hns]; exact hwf.rowNodupFn src.tag)
    (by
      intro n hnmem hnd
      rw [hrow2, if_neg hnd]
      rw [hns] at hnmem
      exact hwf.symmFn hnmem)
  rw [hfold] at hexec
  have hmap : st0.tagToSuperpixelMap
      = alErase (alSet (alSet (alSet st.tagToSuperpixelMap dst.tag
          { dst with coords := dst.coords ++ src.coords }) src.tag
          { src with coords := [] }) dst.tag
          { dst with
            coords := dst.coords ++ src.coords
            mergedEdgeWeights := dst.mergedEdgeWeights ++ src.mergedEdgeWeights
            unmergedEdgeWeights := dst.unmergedEdgeWeights ++ src.unmergedEdgeWeights })
          src.tag := by
    injection hexec with hrec
    rw [← hrec]
  have hetab : st0.edgeTable = et3.removeNeighbors src.tag := by
    injection hexec with hrec
    rw [← hrec]
  -- key bookkeeping for the adjacency map
  have h1 : et1.neighborsMap = st.edgeTable.neighborsMap := by
    rw [het1]
    exact neighborsMap_strengthFold _ _ _
  have h2nodup : (et2.neighborsMap.map Prod.fst).Nodup := by
    rw [het2]
    simp only [SuperpixelEdgeTable.setNeighbors]
    rw [h1]
    exact keys_alSet_nodup _ _ hwf.rowKeysNodup
  have h3nodup : (et3.neighborsMap.map Prod.fst).Nodup :=
    mergeRepair_fold_keysNodup src.tag dst.tag _ et2 et3 hfold h2nodup
  have hrownodup0 : (st0.edgeTable.neighborsMap.map Prod.fst).Nodup := by
    rw [hetab]
    simp only [SuperpixelEdgeTable.removeNeighbors]
    exact keys_alErase_nodup _ h3nodup
  -- function-level facts about the merged rows
  have hsymm' : ∀ t u, u ∈ neighborsOf st0 t → t ∈ neighborsOf st0 u := by
    intro t u hu
    by_cases hts : t = src.tag
    · rw [hts, hrsrc] at hu
      exact absurd hu (List.not_mem_nil u)
    by_cases htd : t = dst.tag
    · subst htd
      rw [hrdst] at hu
      rcases List.mem_append.mp hu with hu1 | hu2
      · have hh := List.mem_filter.mp hu1
        have hus : u ≠ src.tag := by simpa using hh.2
        have hdu : dst.tag ∈ neighborsOf st u := hwf.symmFn hh.1
        have hud : u ≠ dst.tag := fun h => hwf.noSelfFn dst.tag (h ▸ hh.1)
        by_cases hun : u ∈ neighborsOf st src.tag
        · rw [hrn u hun hud]
          by_cases hin : dst.tag ∈ (neighborsOf st u).filter (fun x => x ≠ src.tag)
          · rw [if_pos hin, List.append_nil]
            exact hin
          · rw [if_neg hin]
            exact List.mem_append_right _ (List.mem_singleton.mpr rfl)
        · rw [hroth u hun hud hus]
          exact hdu
      · have hh := List.mem_filter.mp hu2
        have hcond := hh.2
        simp only [decide_eq_true_eq] at hcond
        rw [hrn u hh.1 hcond.1, if_neg hcond.2]
        exact List.mem_append_right _ (List.mem_singleton.mpr rfl)
    by_cases htn : t ∈ neighborsOf st src.tag
    · rw [hrn t htn htd] at hu
      rcases List.mem_append.mp hu with hu1 | hu2
      · have hh := List.mem_filter.mp hu1
        have hus : u ≠ src.tag := by simpa using hh.2
        have htu : t ∈ neighborsOf st u := hwf.symmFn hh.1
        by_cases hud : u = dst.tag
        · subst hud
          rw [hrdst]
          exact List.mem_append_left _ (List.mem_filter.mpr ⟨htu, by simpa using hts⟩)
        · by_cases hun : u ∈ neighborsOf st src.tag
          · rw [hrn u hun hud]
            exact List.mem_append_left _ (List.mem_filter.mpr ⟨htu, by simpa using hts⟩)
          · rw [hroth u hun hud hus]
            exact htu
      · by_cases hin : dst.tag ∈ (neighborsOf st t).filter (fun x => x ≠ src.tag)
        · rw [if_pos hin] at hu2
          exact absurd hu2 (List.not_mem_nil u)
        · rw [if_neg hin] at hu2
          have hud : u = dst.tag := List.mem_singleton.mp hu2
          subst hud
          rw [hrdst]
          apply List.mem_append_right
          refine List.mem_filter.mpr ⟨htn, ?_⟩
          simp only [decide_eq_true_eq]
          exact ⟨htd, hin⟩
    · rw [hroth t htn htd hts] at hu
      have htu : t ∈ neighborsOf st u := hwf.symmFn hu
      have hus : u ≠ src.tag := by
        intro hcon
        exact htn (hwf.symmFn (hcon ▸ hu))
      by_cases hud : u = dst.tag
      · subst hud
        rw [hrdst]
        exact List.mem_append_left _ (List.mem_filter.mpr ⟨htu, by simpa using hts⟩)
      · by_cases hun : u ∈ neighborsOf st src.tag
        · rw [hrn u hun hud]
          exact List.mem_append_left _ (List.mem_filter.mpr ⟨htu, by simpa using hts⟩)
        · rw [hroth u hun hud hus]
          exact htu
  have hactive' : ∀ t u, u ∈ neighborsOf st0 t → u ∈ st.superpixels.erase src.tag := by
    intro t u hu
    rw [List.Nodup.mem_erase_iff hnodup]
    by_cases hts : t = src.tag
    · rw [hts, hrsrc] at hu
      exact absurd hu (List.not_mem_nil u)
    by_cases htd : t = dst.tag
    · subst htd
      rw [hrdst] at hu
      rcases List.mem_append.mp hu with hu1 | hu2
      · have hh := List.mem_filter.mp hu1
        exact ⟨by simpa using hh.2, hwf.entriesActiveFn hh.1⟩
      · have hh := List.mem_filter.mp hu2
        refine ⟨?_, hwf.entriesActiveFn hh.1⟩
        intro hcon
        exact hwf.noSelfFn src.tag (hcon ▸ hh.1)
    by_cases htn : t ∈ neighborsOf st src.tag
    · rw [hrn t htn htd] at hu
      rcases List.mem_append.mp hu with hu1 | hu2
      · have hh := List.mem_filter.mp hu1
        exact ⟨by simpa using hh.2, hwf.entriesActiveFn hh.1⟩
      · by_cases hin : dst.tag ∈ (neighborsOf st t).filter (fun x => x ≠ src.tag)
        · rw [if_pos hin] at hu2
          exact absurd hu2 (List.not_mem_nil u)
        · rw [if_neg hin] at hu2
          have hud : u = dst.tag := List.mem_singleton.mp hu2
          subst hud
          exact ⟨Ne.symm hne, hdst_mem⟩
    · rw [hroth t htn htd hts] at hu
      refine ⟨?_, hwf.entriesActiveFn hu⟩
      intro hcon
      exact htn (hwf.symmFn (hcon ▸ hu))
  have hnoSelf' : ∀ t, t ∉ neighborsOf st0 t := by
    intro t ht
    by_cases hts : t = src.tag
    · rw [hts, hrsrc] at ht
      exact absurd ht (List.not_mem_nil _)
    by_cases htd : t = dst.tag
    · subst htd
      rw [hrdst] at ht
      rcases List.mem_append.mp ht with hh1 | hh2
      · exact hwf.noSelfFn dst.tag (List.mem_filter.mp hh1).1
      · have hcond := (List.mem_filter.mp hh2).2
        simp only [decide_eq_true_eq] at hcond
        exact hcond.1 rfl
    by_cases htn : t ∈ neighborsOf st src.tag
    · rw [hrn t htn htd] at ht
      rcases List.mem_append.mp ht with hh1 | hh2
      · exact hwf.noSelfFn t (List.mem_filter.mp hh1).1
      · by_cases hin : dst.tag ∈ (neighborsOf st t).filter (fun x => x ≠ src.tag)
        · rw [if_pos hin] at hh2
          exact absurd hh2 (List.not_mem_nil _)
        · rw [if_neg hin] at hh2
          exact htd (List.mem_singleton.mp hh2)
    · rw [hroth t htn htd hts] at ht
      exact hwf.noSelfFn t ht
  have hrnodup' : ∀ t, (neighborsOf st0 t).Nodup :=
    mergeTail_rows_nodup st st0 src dst hwf hlookS hlookD hne hadjS hm
  -- row values through lookup, given duplicate-free keys
  have hrowval : ∀ r ∈ st0.edgeTable.neighborsMap, neighborsOf st0 r.1 = r.2 := by
    intro r hr
    rw [neighborsOf, SuperpixelEdgeTable.getNeighbors,
      mem_lookup_of_keysNodup hrownodup0 hr]
    rfl
  refine ⟨?_, ?_, ?_, ?_, ?_, ?_, ?_, ?_, ?_, ?_, ?_⟩
  · -- sorted
    rw [hsps]
    exact List.Pairwise.sublist (List.erase_sublist _ _) hwf.sorted
  · -- mapKeysNodup
    rw [hmap]
    exact keys_alErase_nodup _ (keys_alSet_nodup _ _ (keys_alSet_nodup _ _
      (keys_alSet_nodup _ _ hwf.mapKeysNodup)))
  · -- rowKeysNodup
    exact hrownodup0
  · -- live
    intro t ht
    rw [hsps] at ht
    obtain ⟨hts, htm⟩ := (List.Nodup.mem_erase_iff hnodup).mp ht
    by_cases htd : t = dst.tag
    · subst htd
      rw [show st0.tagToSuperpixelMap.lookup dst.tag = some sp from hmdst]
      rfl
    · rw [show st0.tagToSuperpixelMap.lookup t = st.tagToSuperpixelMap.lookup t from
        hmoth t hts htd]
      exact hwf.live t htm
  · -- keysActive
    intro p hp
    rw [hmap] at hp
    obtain ⟨hp3, hps⟩ := alErase_entry hp
    rw [hsps, List.Nodup.mem_erase_iff hnodup]
    rcases alSet_entry_cases hp3 with hp2 | hpd
    · rcases alSet_entry_cases hp2 with hp1 | hpsrc
      · rcases alSet_entry_cases hp1 with hp0 | hpd1
        · exact ⟨hps, hwf.keysActive p hp0⟩
        · subst hpd1
          exact ⟨Ne.symm hne, hdst_mem⟩
      · subst hpsrc
        exact absurd rfl hps
    · subst hpd
      exact ⟨Ne.symm hne, hdst_mem⟩
  · -- tagMatch
    intro p hp
    rw [hmap] at hp
    obtain ⟨hp3, _⟩ := alErase_entry hp
    rcases alSet_entry_cases hp3 with hp2 | hpd
    · rcases alSet_entry_cases hp2 with hp1 | hpsrc
      · rcases alSet_entry_cases hp1 with hp0 | hpd1
        · exact hwf.tagMatch p hp0
        · subst hpd1
          rfl
      · subst hpsrc
        rfl
    · subst hpd
      rfl
  · -- rowKeyActive
    intro r hr
    rw [hetab] at hr
    simp only [SuperpixelEdgeTable.removeNeighbors] at hr
    obtain ⟨hr3, hrs⟩ := alErase_entry hr
    have hk3 : r.1 ∈ et3.neighborsMap.map Prod.fst := List.mem_map.mpr ⟨r, hr3, rfl⟩
    rw [hsps, List.Nodup.mem_erase_iff hnodup]
    rcases mergeRepair_fold_keys src.tag dst.tag _ et2 et3 hfold r.1 hk3 with hk2 | hkn | hkd
    · rw [het2] at hk2
      simp only [SuperpixelEdgeTable.setNeighbors] at hk2
      rcases (mem_keys_alSet _ _ _ r.1).mp hk2 with hkd' | hk1
      · exact hkd' ▸ ⟨Ne.symm hne, hdst_mem⟩
      · rw [h1] at hk1
        obtain ⟨q, hq, hqk⟩ := List.mem_map.mp hk1
        exact ⟨hrs, hqk ▸ hwf.rowKeyActive q hq⟩
    · rw [hns] at hkn
      exact ⟨hrs, hwf.entriesActiveFn hkn⟩
    · exact hkd ▸ ⟨Ne.symm hne, hdst_mem⟩
  · -- rowEntriesActive
    intro r hr n hn
    rw [← hrowval r hr] at hn
    rw [show st0.superpixels = st.superpixels.erase src.tag from hsps]
    exact hactive' r.1 n hn
  · -- symm
    intro r hr n hn
    rw [← hrowval r hr] at hn
    exact hsymm' r.1 n hn
  · -- noSelf
    intro r hr
    rw [← hrowval r hr]
    exact hnoSelf' r.1
  · -- rowNodup
    intro r hr
    rw [← hrowval r hr]
    exact hrnodup' r.1

/-- A successful public merge preserves the structural invariant. -/
theorem mergeEdge_WF (st st' : SuperpixelImageState) (a b : Tag)
    (hwf : WF st) (hm : mergeEdge st a b = some st') :
    WF st' := by
  rw [mergeEdge] at hm
  split at hm
  · exact absurd hm (by simp)
  · rename_i hab
    split at hm
    · rename_i spA spB hA hB
      have hTagA : spA.tag = a := hwf.tagMatch (a, spA) (lookup_mem hA)
      have hTagB : spB.tag = b := hwf.tagMatch (b, spB) (lookup_mem hB)
      subst hTagA
      subst hTagB
      split at hm
      · exact mergeTail_WF st st' spB spA hwf hB hA (Ne.symm hab) hm
      · exact mergeTail_WF st st' spA spB hwf hA hB hab hm
    · exact absurd hm (by simp)

/-! ## The first parse scan -/

/-- Membership in the row-major pixel traversal. -/
theorem mem_pixelList (img : TagImage) (p : Nat × Nat) :
    p ∈ pixelList img ↔ p.1 < img.rows ∧ p.2 < img.cols := by
  obtain ⟨y, x⟩ := p
  rw [pixelList]
  simp only [List.mem_flatMap, List.mem_map, List.mem_range]
  constructor
  · rintro ⟨y', hy', x', hx', heq⟩
    obtain ⟨rfl, rfl⟩ := Prod.mk.injEq .. ▸ And.intro (congrArg Prod.fst heq)
      (congrArg Prod.snd heq)
    exact ⟨hy', hx'⟩
  · rintro ⟨hy, hx⟩
    exact ⟨y, hy, x, hx, rfl⟩

/-- The accumulated map of the first scan of `parse`: duplicate-free keys,
regions tagged with their key carrying empty weight histories, the
coordinates being exactly the processed pixels of that label in scan
order, and a key per processed label. -/
theorem parsePixelFold_spec (img : TagImage) :
    ∀ (l : List (Nat × Nat)),
      (∀ p ∈ l, img.tagAt p.1 p.2 < reservedTag) →
      ∀ (done : List (Nat × Nat)) (m : SpMap),
      (m.map Prod.fst).Nodup →
      (∀ q ∈ m, q.2.tag = q.1 ∧ q.2.mergedEdgeWeights = [] ∧
        q.2.unmergedEdgeWeights = [] ∧
        q.2.coords = (done.filter (fun p => img.tagAt p.1 p.2 + 1 = q.1)).map
          (fun p => (p.2, p.1))) →
      (∀ t, (m.lookup t).isSome ↔ ∃ p ∈ done, img.tagAt p.1 p.2 + 1 = t) →
      ∃ m', l.foldlM (parsePixelStep img) m = some m' ∧
        (m'.map Prod.fst).Nodup ∧
        (∀ q ∈ m', q.2.tag = q.1 ∧ q.2.mergedEdgeWeights = [] ∧
          q.2.unmergedEdgeWeights = [] ∧
          q.2.coords = ((done ++ l).filter (fun p => img.tagAt p.1 p.2 + 1 = q.1)).map
            (fun p => (p.2, p.1))) ∧
        (∀ t, (m'.lookup t).isSome ↔ ∃ p ∈ done ++ l, img.tagAt p.1 p.2 + 1 = t) := by
  intro l
  induction l with
  | nil =>
    intro _ done m hnodup hent hmem
    exact ⟨m, rfl, hnodup, by simpa using hent, by simpa using hmem⟩
  | cons p l ih =>
    intro hl done m hnodup hent hmem
    have hp : img.tagAt p.1 p.2 < reservedTag := hl p (List.mem_cons_self p l)
    have hstep : parsePixelStep img m p
        = some (alSet m (img.tagAt p.1 p.2 + 1)
            (match m.lookup (img.tagAt p.1 p.2 + 1) with
             | some sp => sp.appendCoord p.2 p.1
             | none => ⟨img.tagAt p.1 p.2 + 1, [(p.2, p.1)], [], []⟩)) := by
      rw [parsePixelStep]
      simp only
      rw [if_neg (Nat.ne_of_lt hp), if_pos hp]
      cases hlk : m.lookup (img.tagAt p.1 p.2 + 1) with
      | some sp => rfl
      | none =>
        rw [alSet, if_neg (by rw [hlk]; simp)]
    set t1 := img.tagAt p.1 p.2 + 1 with ht1
    set v1 := (match m.lookup t1 with
      | some sp => sp.appendCoord p.2 p.1
      | none => (⟨t1, [(p.2, p.1)], [], []⟩ : Superpixel)) with hv1
    have hfoldstep : (p :: l).foldlM (parsePixelStep img) m
        = l.foldlM (parsePixelStep img) (alSet m t1 v1) := by
      rw [List.foldlM_cons, hstep]
      rfl
    -- the invariant transfers to the updated accumulator
    have hnodup' : ((alSet m t1 v1).map Prod.fst).Nodup := keys_alSet_nodup _ _ hnodup
    have hv1tag : v1.tag = t1 ∧ v1.mergedEdgeWeights = [] ∧ v1.unmergedEdgeWeights = []
        ∧ v1.coords = ((done ++ [p]).filter (fun q => img.tagAt q.1 q.2 + 1 = t1)).map
          (fun q => (q.2, q.1)) := by
      cases hlk : m.lookup t1 with
      | some sp =>
        have hv1eq : v1 = sp.appendCoord p.2 p.1 := by rw [hv1, hlk]
        obtain ⟨hta, hmw, huw, hco⟩ := hent (t1, sp) (lookup_mem hlk)
        rw [hv1eq, Superpixel.appendCoord]
        refine ⟨hta, hmw, huw, ?_⟩
        simp only
        rw [hco, List.filter_append, List.map_append]
        congr 1
        rw [show List.filter (fun q => decide (img.tagAt q.1 q.2 + 1 = t1)) [p] = [p] by
          simp [ht1]]
        simp
      | none =>
        have hv1eq : v1 = ⟨t1, [(p.2, p.1)], [], []⟩ := by rw [hv1, hlk]
        rw [hv1eq]
        refine ⟨rfl, rfl, rfl, ?_⟩
        have hdone : done.filter (fun q => img.tagAt q.1 q.2 + 1 = t1) = [] := by
          rw [List.filter_eq_nil_iff]
          intro q hq
          simp only [decide_eq_true_eq]
          intro hcon
          have : (m.lookup t1).isSome := (hmem t1).mpr ⟨q, hq, hcon⟩
          rw [hlk] at this
          exact absurd this (by simp)
        rw [List.filter_append, hdone, List.nil_append]
        rw [show List.filter (fun q => decide (img.tagAt q.1 q.2 + 1 = t1)) [p] = [p] by
          simp [ht1]]
        simp
    have hent' : ∀ q ∈ alSet m t1 v1, q.2.tag = q.1 ∧ q.2.mergedEdgeWeights = [] ∧
        q.2.unmergedEdgeWeights = [] ∧
        q.2.coords = ((done ++ [p]).filter (fun r => img.tagAt r.1 r.2 + 1 = q.1)).map
          (fun r => (r.2, r.1)) := by
      intro q hq
      by_cases hqt : q.1 = t1
      · have hql : (alSet m t1 v1).lookup q.1 = some q.2 :=
          mem_lookup_of_keysNodup hnodup' hq
        rw [hqt, lookup_alSet, if_pos rfl] at hql
        have hqv : q.2 = v1 := (Option.some_injective _ hql).symm
        rw [hqv, hqt]
        exact hv1tag
      · rcases alSet_entry_cases hq with hq0 | hq1
        · obtain ⟨hta, hmw, huw, hco⟩ := hent q hq0
          refine ⟨hta, hmw, huw, ?_⟩
          rw [hco, List.filter_append, List.map_append]
          rw [show List.filter (fun r => decide (img.tagAt r.1 r.2 + 1 = q.1)) [p] = [] by
            simp [ht1.symm ▸ hqt, Ne.symm hqt]]
          rw [List.map_nil, List.append_nil]
        · exact absurd (congrArg Prod.fst hq1) hqt
    have hmem' : ∀ t, ((alSet m t1 v1).lookup t).isSome ↔
        ∃ q ∈ done ++ [p], img.tagAt q.1 q.2 + 1 = t := by
      intro t
      rw [lookup_alSet]
      by_cases ht : t = t1
      · subst ht
        rw [if_pos rfl]
        constructor
        · intro _
          exact ⟨p, List.mem_append_right _ (List.mem_singleton.mpr rfl), ht1.symm⟩
        · intro _
          rfl
      · rw [if_neg ht, hmem t]
        constructor
        · rintro ⟨q, hq, hqt⟩
          exact ⟨q, List.mem_append_left _ hq, hqt⟩
        · rintro ⟨q, hq, hqt⟩
          rcases List.mem_append.mp hq with hq' | hq'
          · exact ⟨q, hq', hqt⟩
          · rw [List.mem_singleton.mp hq'] at hqt
            exact absurd (hqt.symm.trans ht1.symm) ht
    obtain ⟨m', hfold, hnd, hent'', hmem''⟩ := ih (fun q hq => hl q (List.mem_cons_of_mem p hq))
      (done ++ [p]) (alSet m t1 v1) hnodup' hent' hmem'
    refine ⟨m', by rw [hfoldstep]; exact hfold, hnd, ?_, ?_⟩
    · intro q hq
      have h := hent'' q hq
      rwa [List.append_assoc, List.singleton_append] at h
    · intro t
      rw [hmem'' t, List.append_assoc, List.singleton_append]

/-! ## The edge scan of `parseSuperpixelEdges` -/

/-- The offset loop only appends to the incoming vector. -/
theorem edgeScan_extends (img2 : TagImage) (y x : Nat) (c : Tag) :
    ∀ (offs : List (Int × Int)) (vec0 : List Tag),
      ∃ add, offs.foldl (fun vec off =>
        let nX : Int := (x : Int) + off.1
        let nY : Int := (y : Int) + off.2
        if nX < 0 ∨ (img2.cols : Int) ≤ nX ∨ nY < 0 ∨ (img2.rows : Int) ≤ nY then vec
        else
          let found := img2.tagAt nY.toNat nX.toNat
          if found = c then vec
          else if found ∈ vec then vec
          else vec ++ [found]) vec0 = vec0 ++ add := by
  intro offs
  induction offs with
  | nil =>
    intro vec0
    exact ⟨[], by simp⟩
  | cons off offs ih =>
    intro vec0
    rw [List.foldl_cons]
    simp only
    split
    · exact ih vec0
    · split
      · exact ih vec0
      · split
        · exact ih vec0
        · obtain ⟨add, hadd⟩ := ih (vec0 ++
            [img2.tagAt ((y : Int) + off.2).toNat ((x : Int) + off.1).toNat])
          exact ⟨_, by rw [hadd, List.append_assoc]⟩

/-- Every element of the offset loop's result is either inherited or the
tag of an in-bounds differing neighbor reached by one of the offsets. -/
theorem edgeScan_mem_src (img2 : TagImage) (y x : Nat) (c : Tag) :
    ∀ (offs : List (Int × Int)) (vec0 : List Tag) (v : Tag),
      v ∈ offs.foldl (fun vec off =>
        let nX : Int := (x : Int) + off.1
        let nY : Int := (y : Int) + off.2
        if nX < 0 ∨ (img2.cols : Int) ≤ nX ∨ nY < 0 ∨ (img2.rows : Int) ≤ nY then vec
        else
          let found := img2.tagAt nY.toNat nX.toNat
          if found = c then vec
          else if found ∈ vec then vec
          else vec ++ [found]) vec0 →
      v ∈ vec0 ∨ ∃ off ∈ offs,
        ¬((x : Int) + off.1 < 0 ∨ (img2.cols : Int) ≤ (x : Int) + off.1 ∨
          (y : Int) + off.2 < 0 ∨ (img2.rows : Int) ≤ (y : Int) + off.2) ∧
        img2.tagAt ((y : Int) + off.2).toNat ((x : Int) + off.1).toNat = v ∧ v ≠ c := by
  intro offs
  induction offs with
  | nil =>
    intro vec0 v hv
    exact Or.inl hv
  | cons off offs ih =>
    intro vec0 v hv
    rw [List.foldl_cons] at hv
    simp only at hv
    split at hv
    · rcases ih vec0 v hv with h | ⟨o, ho, hval⟩
      · exact Or.inl h
      · exact Or.inr ⟨o, List.mem_cons_of_mem off ho, hval⟩
    · split at hv
      · rcases ih vec0 v hv with h | ⟨o, ho, hval⟩
        · exact Or.inl h
        · exact Or.inr ⟨o, List.mem_cons_of_mem off ho, hval⟩
      · split at hv
        · rcases ih vec0 v hv with h | ⟨o, ho, hval⟩
          · exact Or.inl h
          · exact Or.inr ⟨o, List.mem_cons_of_mem off ho, hval⟩
        · rcases ih _ v hv with h | ⟨o, ho, hval⟩
          · rcases List.mem_append.mp h with h1 | h2
            · exact Or.inl h1
            · rename_i hoob hc hmem
              refine Or.inr ⟨off, List.mem_cons_self off offs, hoob, ?_, ?_⟩
              · exact (List.mem_singleton.mp h2).symm
              · rw [List.mem_singleton.mp h2]
                exact hc
          · exact Or.inr ⟨o, List.mem_cons_of_mem off ho, hval⟩

/-- Any in-bounds differing neighbor tag of one of the offsets ends up in
the offset loop's result. -/
theorem edgeScan_mem_tgt (img2 : TagImage) (y x : Nat) (c : Tag) :
    ∀ (offs : List (Int × Int)) (vec0 : List Tag) (off : Int × Int),
      off ∈ offs →
      ¬((x : Int) + off.1 < 0 ∨ (img2.cols : Int) ≤ (x : Int) + off.1 ∨
        (y : Int) + off.2 < 0 ∨ (img2.rows : Int) ≤ (y : Int) + off.2) →
      img2.tagAt ((y : Int) + off.2).toNat ((x : Int) + off.1).toNat ≠ c →
      img2.tagAt ((y : Int) + off.2).toNat ((x : Int) + off.1).toNat ∈
        offs.foldl (fun vec off =>
          let nX : Int := (x : Int) + off.1
          let nY : Int := (y : Int) + off.2
          if nX < 0 ∨ (img2.cols : Int) ≤ nX ∨ nY < 0 ∨ (img2.rows : Int) ≤ nY then vec
          else
            let found := img2.tagAt nY.toNat nX.toNat
            if found = c then vec
            else if found ∈ vec then vec
            else vec ++ [found]) vec0 := by
  intro offs
  induction offs with
  | nil =>
    intro vec0 off hmem
    exact absurd hmem (List.not_mem_nil off)
  | cons o offs ih =>
    intro vec0 off hmem hbound hc
    rw [List.foldl_cons]
    simp only
    rcases List.mem_cons.mp hmem with rfl | hmem'
    · rw [if_neg hbound, if_neg hc]
      by_cases hin : img2.tagAt ((y : Int) + off.2).toNat ((x : Int) + off.1).toNat ∈ vec0
      · rw [if_pos hin]
        obtain ⟨add, hadd⟩ := edgeScan_extends img2 y x c offs vec0
        rw [hadd]
        exact List.mem_append_left _ hin
      · rw [if_neg hin]
        obtain ⟨add, hadd⟩ := edgeScan_extends img2 y x c offs
          (vec0 ++ [img2.tagAt ((y : Int) + off.2).toNat ((x : Int) + off.1).toNat])
        rw [hadd, List.append_assoc]
        exact List.mem_append_right _
          (List.mem_append_left _ (List.mem_singleton.mpr rfl))
    · split
      · exact ih vec0 off hmem' hbound hc
      · split
        · exact ih vec0 off hmem' hbound hc
        · split
          · exact ih vec0 off hmem' hbound hc
          · exact ih _ off hmem' hbound hc

/-- The offset loop keeps the neighbor vector duplicate-free. -/
theorem edgeScan_nodup (img2 : TagImage) (y x : Nat) (c : Tag) :
    ∀ (offs : List (Int × Int)) (vec0 : List Tag),
      vec0.Nodup →
      (offs.foldl (fun vec off =>
        let nX : Int := (x : Int) + off.1
        let nY : Int := (y : Int) + off.2
        if nX < 0 ∨ (img2.cols : Int) ≤ nX ∨ nY < 0 ∨ (img2.rows : Int) ≤ nY then vec
        else
          let found := img2.tagAt nY.toNat nX.toNat
          if found = c then vec
          else if found ∈ vec then vec
          else vec ++ [found]) vec0).Nodup := by
  intro offs
  induction offs with
  | nil =>
    intro vec0 h
    exact h
  | cons off offs ih =>
    intro vec0 h
    rw [List.foldl_cons]
    simp only
    split
    · exact ih vec0 h
    · split
      · exact ih vec0 h
      · split
        · exact ih vec0 h
        · rename_i hmem
          refine ih _ (List.nodup_append.mpr ⟨h, List.nodup_singleton _, ?_⟩)
          intro a ha hb
          rw [List.mem_singleton.mp hb] at ha
          exact hmem ha

/-- `edgeScanOffsets` spelt as the raw fold over the offsets. -/
theorem edgeScanOffsets_eq (img2 : TagImage) (y x : Nat) (c : Tag) (vec0 : List Tag) :
    edgeScanOffsets img2 y x c vec0 = neighborOffsets.foldl (fun vec off =>
      let nX : Int := (x : Int) + off.1
      let nY : Int := (y : Int) + off.2
      if nX < 0 ∨ (img2.cols : Int) ≤ nX ∨ nY < 0 ∨ (img2.rows : Int) ≤ nY then vec
      else
        let found := img2.tagAt nY.toNat nX.toNat
        if found = c then vec
        else if found ∈ vec then vec
        else vec ++ [found]) vec0 := rfl

/-- The per-pixel edge-scan step, read through row lookups. -/
theorem edgeScanPixel_row (img2 : TagImage) (nm : List (Tag × List Tag)) (p : Nat × Nat)
    (t : Tag) :
    ((edgeScanPixel img2 nm p).lookup t).getD []
      = if t = img2.tagAt p.1 p.2
        then edgeScanOffsets img2 p.1 p.2 (img2.tagAt p.1 p.2)
          ((nm.lookup (img2.tagAt p.1 p.2)).getD [])
        else (nm.lookup t).getD [] := by
  rw [edgeScanPixel]
  rw [lookup_alSet]
  by_cases h : t = img2.tagAt p.1 p.2
  · rw [if_pos h, if_pos h]
    rfl
  · rw [if_neg h, if_neg h]

/-- The edge-scan fold keeps every row duplicate-free, self-free, and
sound for the 8-neighbor adjacency relation. -/
theorem edgeScanFold_inv (img2 : TagImage) :
    ∀ (l : List (Nat × Nat)), (∀ p ∈ l, p ∈ pixelList img2) →
    ∀ (nm : List (Tag × List Tag)),
      (∀ t, (((nm.lookup t).getD []).Nodup ∧ t ∉ (nm.lookup t).getD []) ∧
        ∀ t' ∈ (nm.lookup t).getD [], adjacentTags img2 t t') →
      (∀ t, ((((l.foldl (edgeScanPixel img2) nm).lookup t).getD []).Nodup ∧
        t ∉ ((l.foldl (edgeScanPixel img2) nm).lookup t).getD []) ∧
        ∀ t' ∈ ((l.foldl (edgeScanPixel img2) nm).lookup t).getD [],
          adjacentTags img2 t t') := by
  intro l
  induction l with
  | nil =>
    intro _ nm h
    exact h
  | cons p l ih =>
    intro hl nm h
    rw [List.foldl_cons]
    apply ih (fun q hq => hl q (List.mem_cons_of_mem p hq))
    intro t
    rw [edgeScanPixel_row]
    by_cases ht : t = img2.tagAt p.1 p.2
    · rw [if_pos ht]
      obtain ⟨⟨hnd, hns⟩, hadj⟩ := h (img2.tagAt p.1 p.2)
      rw [edgeScanOffsets_eq]
      refine ⟨⟨edgeScan_nodup img2 p.1 p.2 _ neighborOffsets _ hnd, ?_⟩, ?_⟩
      · intro hmem
        rcases edgeScan_mem_src img2 p.1 p.2 _ neighborOffsets _ t hmem with h1 | ⟨o, _, _, _, hno⟩
        · exact hns (ht ▸ h1)
        · exact hno ht
      · intro t' hmem
        rcases edgeScan_mem_src img2 p.1 p.2 _ neighborOffsets _ t' hmem
          with h1 | ⟨o, ho, hbound, hfound, hne⟩
        · exact ht ▸ hadj t' h1
        · exact ⟨ht ▸ hne, p, hl p (List.mem_cons_self p l), o, ho, ht.symm, hbound, hfound⟩
    · rw [if_neg ht]
      exact h t

/-- One edge-scan step never removes a recorded neighbor. -/
theorem edgeScanPixel_row_mono (img2 : TagImage) (nm : List (Tag × List Tag))
    (p : Nat × Nat) (t t' : Tag) (h : t' ∈ (nm.lookup t).getD []) :
    t' ∈ ((edgeScanPixel img2 nm p).lookup t).getD [] := by
  rw [edgeScanPixel_row]
  by_cases ht : t = img2.tagAt p.1 p.2
  · rw [if_pos ht, edgeScanOffsets_eq]
    obtain ⟨add, hadd⟩ := edgeScan_extends img2 p.1 p.2 (img2.tagAt p.1 p.2)
      neighborOffsets ((nm.lookup (img2.tagAt p.1 p.2)).getD [])
    rw [hadd]
    exact List.mem_append_left _ (ht ▸ h)
  · rw [if_neg ht]
    exact h

/-- The edge-scan fold never removes a recorded neighbor. -/
theorem edgeScanFold_mono (img2 : TagImage) :
    ∀ (l : List (Nat × Nat)) (nm : List (Tag × List Tag)) (t t' : Tag),
      t' ∈ (nm.lookup t).getD [] →
      t' ∈ ((l.foldl (edgeScanPixel img2) nm).lookup t).getD [] := by
  intro l
  induction l with
  | nil =>
    intro nm t t' h
    exact h
  | cons p l ih =>
    intro nm t t' h
    rw [List.foldl_cons]
    exact ih _ t t' (edgeScanPixel_row_mono img2 nm p t t' h)

/-- Every adjacency of the label image is recorded by the full scan. -/
theorem tagToNeighborMap_complete (img2 : TagImage) (t t' : Tag)
    (h : adjacentTags img2 t t') :
    t' ∈ (((tagToNeighborMapOf img2).lookup t).getD []) := by
  obtain ⟨hne, a, ha, off, hoff, hat, hbound, hfound⟩ := h
  obtain ⟨l1, l2, hsplit⟩ := List.append_of_mem ha
  rw [tagToNeighborMapOf, hsplit, List.foldl_append, List.foldl_cons]
  apply edgeScanFold_mono
  rw [edgeScanPixel_row, if_pos hat.symm, edgeScanOffsets_eq]
  rw [← hfound]
  exact edgeScan_mem_tgt img2 a.1 a.2 (img2.tagAt a.1 a.2) neighborOffsets _ off hoff
    hbound (by rw [hfound, hat]; exact hne)

/-- Membership in the scanned neighbor map is exactly 8-neighbor
adjacency of differing labels. -/
theorem tagToNeighborMap_mem (img2 : TagImage) (t t' : Tag) :
    t' ∈ (((tagToNeighborMapOf img2).lookup t).getD []) ↔ adjacentTags img2 t t' := by
  constructor
  · intro h
    rw [tagToNeighborMapOf] at h
    exact ((edgeScanFold_inv img2 (pixelList img2) (fun p hp => hp) []
      (by intro u; simp [List.lookup])) t).2 t' h
  · exact tagToNeighborMap_complete img2 t t'

/-- Rows of the scanned neighbor map are duplicate-free and never contain
their own key. -/
theorem tagToNeighborMap_nodup_noSelf (img2 : TagImage) (t : Tag) :
    (((tagToNeighborMapOf img2).lookup t).getD []).Nodup ∧
      t ∉ ((tagToNeighborMapOf img2).lookup t).getD [] := by
  rw [tagToNeighborMapOf]
  exact ((edgeScanFold_inv img2 (pixelList img2) (fun p hp => hp) []
    (by intro u; simp [List.lookup])) t).1

/-- The 8-neighborhood offset set is closed under negation. -/
theorem neighborOffsets_neg (off : Int × Int) (h : off ∈ neighborOffsets) :
    (-off.1, -off.2) ∈ neighborOffsets := by
  fin_cases h <;> decide

/-- The adjacency relation read off the image is symmetric. -/
theorem adjacentTags_symm (img2 : TagImage) (t t' : Tag)
    (h : adjacentTags img2 t t') : adjacentTags img2 t' t := by
  obtain ⟨hne, p, hp, off, hoff, hat, hbound, hfound⟩ := h
  push_neg at hbound
  obtain ⟨hx0, hxc, hy0, hyr⟩ := hbound
  have hpb := (mem_pixelList img2 p).mp hp
  refine ⟨Ne.symm hne, (((p.1 : Int) + off.2).toNat, ((p.2 : Int) + off.1).toNat),
    ?_, (-off.1, -off.2), neighborOffsets_neg off hoff, hfound, ?_, ?_⟩
  · rw [mem_pixelList]
    constructor
    · omega
    · omega
  · push_neg
    refine ⟨?_, ?_, ?_, ?_⟩ <;> omega
  · have e1 : ((((p.1 : Int) + off.2).toNat : Int) + -off.2).toNat = p.1 := by omega
    have e2 : ((((p.2 : Int) + off.1).toNat : Int) + -off.1).toNat = p.2 := by omega
    rw [e1, e2]
    exact hat

/-- In a row of tags, between an index holding `t` and a later index not
holding `t` there is a change point. -/
theorem exists_change (f : Nat → Nat) (t : Nat) :
    ∀ (b a : Nat), a ≤ b → f a = t → f b ≠ t →
      ∃ i, a ≤ i ∧ i < b ∧ f i = t ∧ f (i + 1) ≠ t := by
  intro b
  induction b with
  | zero =>
    intro a ha hA hB
    have : a = 0 := Nat.le_zero.mp ha
    subst this
    exact absurd hA hB
  | succ b ih =>
    intro a ha hA hB
    by_cases hfb : f b = t
    · by_cases hab : a = b + 1
      · subst hab
        exact absurd hA hB
      · have ha' : a ≤ b := by omega
        exact ⟨b, ha', Nat.lt_succ_self b, hfb, hB⟩
    · by_cases hab : a = b + 1
      · subst hab
        exact absurd hA hB
      · have ha' : a ≤ b := by omega
        obtain ⟨i, h1, h2, h3, h4⟩ := ih a ha' hA hfb
        exact ⟨i, h1, Nat.lt_succ_of_lt h2, h3, h4⟩

/-- The mirrored change point, walking downward. -/
theorem exists_change_down (f : Nat → Nat) (t : Nat) :
    ∀ (a b : Nat), b ≤ a → f a = t → f b ≠ t →
      ∃ i, b ≤ i ∧ i < a ∧ f i ≠ t ∧ f (i + 1) = t := by
  intro a
  induction a with
  | zero =>
    intro b hb hA hB
    have : b = 0 := Nat.le_zero.mp hb
    subst this
    exact absurd hA hB
  | succ a ih =>
    intro b hb hA hB
    by_cases hba : b = a + 1
    · subst hba
      exact absurd hA hB
    · have hb' : b ≤ a := by omega
      by_cases hfa : f a = t
      · obtain ⟨i, h1, h2, h3, h4⟩ := ih b hb' hfa hB
        exact ⟨i, h1, Nat.lt_succ_of_lt h2, h3, h4⟩
      · exact ⟨a, hb', Nat.lt_succ_self a, hfa, hA⟩

/-- Two pixels of one row with differing "is tag t" status yield an
adjacency out of the `t` region. -/
theorem row_adjacent (img2 : TagImage) (t : Tag) (y a b : Nat)
    (hy : y < img2.rows) (ha : a < img2.cols) (hb : b < img2.cols)
    (hA : img2.tagAt y a = t) (hB : img2.tagAt y b ≠ t) :
    ∃ t', adjacentTags img2 t t' := by
  by_cases hab : a ≤ b
  · obtain ⟨i, h1, h2, h3, h4⟩ := exists_change (img2.tagAt y) t b a hab hA hB
    refine ⟨img2.tagAt y (i + 1), h4, (y, i), ?_, (1, 0), by decide, h3, ?_, ?_⟩
    · rw [mem_pixelList]
      exact ⟨hy, by omega⟩
    · push_neg
      refine ⟨by omega, by omega, by omega, by omega⟩
    · have e1 : (((y : Nat) : Int) + (0 : Int)).toNat = y := by omega
      have e2 : (((i : Nat) : Int) + (1 : Int)).toNat = i + 1 := by omega
      rw [e1, e2]
  · have hba : b ≤ a := by omega
    obtain ⟨i, h1, h2, h3, h4⟩ := exists_change_down (img2.tagAt y) t a b hba hA hB
    refine ⟨img2.tagAt y i, h3, (y, i + 1), ?_, (-1, 0), by decide, h4, ?_, ?_⟩
    · rw [mem_pixelList]
      exact ⟨hy, by omega⟩
    · push_neg
      refine ⟨by omega, by omega, by omega, by omega⟩
    · have e1 : (((y : Nat) : Int) + (0 : Int)).toNat = y := by omega
      have e2 : ((((i + 1 : Nat)) : Int) + (-1 : Int)).toNat = i := by omega
      rw [e1, e2]

/-- Two pixels of one column with differing "is tag t" status yield an
adjacency out of the `t` region. -/
theorem col_adjacent (img2 : TagImage) (t : Tag) (x a b : Nat)
    (hx : x < img2.cols) (ha : a < img2.rows) (hb : b < img2.rows)
    (hA : img2.tagAt a x = t) (hB : img2.tagAt b x ≠ t) :
    ∃ t', adjacentTags img2 t t' := by
  by_cases hab : a ≤ b
  · obtain ⟨i, h1, h2, h3, h4⟩ := exists_change (fun y => img2.tagAt y x) t b a hab hA hB
    refine ⟨img2.tagAt (i + 1) x, h4, (i, x), ?_, (0, 1), by decide, h3, ?_, ?_⟩
    · rw [mem_pixelList]
      exact ⟨by omega, hx⟩
    · push_neg
      refine ⟨by omega, by omega, by omega, by omega⟩
    · have e1 : (((i : Nat) : Int) + (1 : Int)).toNat = i + 1 := by omega
      have e2 : (((x : Nat) : Int) + (0 : Int)).toNat = x := by omega
      rw [e1, e2]
  · have hba : b ≤ a := by omega
    obtain ⟨i, h1, h2, h3, h4⟩ := exists_change_down (fun y => img2.tagAt y x) t a b hba hA hB
    refine ⟨img2.tagAt i x, h3, (i + 1, x), ?_, (0, -1), by decide, h4, ?_, ?_⟩
    · rw [mem_pixelList]
      exact ⟨by omega, hx⟩
    · push_neg
      refine ⟨by omega, by omega, by omega, by omega⟩
    · have e1 : ((((i + 1 : Nat)) : Int) + (-1 : Int)).toNat = i := by omega
      have e2 : (((x : Nat) : Int) + (0 : Int)).toNat = x := by omega
      rw [e1, e2]

/-- On a grid holding two pixels of differing tags, every tag's region
touches a differing neighbor: the assert of `parseSuperpixelEdges`. -/
theorem exists_adjacent (img2 : TagImage) (t : Tag) (p q : Nat × Nat)
    (hp : p ∈ pixelList img2) (hq : q ∈ pixelList img2)
    (hpt : img2.tagAt p.1 p.2 = t) (hqt : img2.tagAt q.1 q.2 ≠ t) :
    ∃ t', adjacentTags img2 t t' := by
  obtain ⟨hpy, hpx⟩ := (mem_pixelList img2 p).mp hp
  obtain ⟨hqy, hqx⟩ := (mem_pixelList img2 q).mp hq
  by_cases hmid : img2.tagAt p.1 q.2 = t
  · exact col_adjacent img2 t q.2 p.1 q.1 hqx hpy hqy hmid hqt
  · exact row_adjacent img2 t p.1 p.2 q.2 hpy hpx hqx hpt hmid

/-- The edge-installation fold of `parseSuperpixelEdges`: it succeeds when
no visited region trips the neighborless assert, installs the scanned row
of every visited region, keeps untouched rows, preserves duplicate-free
keys, and only adds visited keys. -/
theorem setEdges_fold_spec (nm : List (Tag × List Tag)) (n : Nat) :
    ∀ (sps : List Tag) (et : SuperpixelEdgeTable),
      (∀ t ∈ sps, ¬(1 < n ∧ (nm.lookup t).getD [] = [])) →
      ∃ et', sps.foldlM (setEdgesStep nm n) et = some et' ∧
        (∀ t, et'.getNeighbors t
          = if t ∈ sps then (nm.lookup t).getD [] else et.getNeighbors t) ∧
        ((et.neighborsMap.map Prod.fst).Nodup → (et'.neighborsMap.map Prod.fst).Nodup) ∧
        (∀ k, k ∈ et'.neighborsMap.map Prod.fst →
          k ∈ et.neighborsMap.map Prod.fst ∨ k ∈ sps) := by
  intro sps
  induction sps with
  | nil =>
    intro et _
    exact ⟨et, rfl, by simp, fun h => h, fun k hk => Or.inl hk⟩
  | cons s sps ih =>
    intro et hok
    have hstep : setEdgesStep nm n et s
        = some (et.setNeighbors s ((nm.lookup s).getD [])) := by
      rw [setEdgesStep]
      rw [if_neg (hok s (List.mem_cons_self s sps))]
    obtain ⟨et', hfold, hrows, hnd, hkeys⟩ :=
      ih (et.setNeighbors s ((nm.lookup s).getD []))
        (fun t ht => hok t (List.mem_cons_of_mem s ht))
    refine ⟨et', ?_, ?_, ?_, ?_⟩
    · rw [List.foldlM_cons, hstep]
      exact hfold
    · intro t
      rw [hrows t]
      by_cases hts : t = s
      · subst hts
        rw [if_pos (List.mem_cons_self t sps)]
        by_cases h2 : t ∈ sps
        · rw [if_pos h2]
        · rw [if_neg h2, getNeighbors_setNeighbors, if_pos rfl]
      · by_cases h2 : t ∈ sps
        · rw [if_pos h2, if_pos (List.mem_cons_of_mem s h2)]
        · rw [if_neg h2, if_neg (by
            intro hc
            rcases List.mem_cons.mp hc with h | h
            · exact hts h
            · exact h2 h), getNeighbors_setNeighbors, if_neg hts]
    · intro h
      apply hnd
      simp only [SuperpixelEdgeTable.setNeighbors]
      exact keys_alSet_nodup _ _ h
    · intro k hk
      rcases hkeys k hk with h1 | h2
      · simp only [SuperpixelEdgeTable.setNeighbors] at h1
        rcases (mem_keys_alSet _ _ _ k).mp h1 with rfl | h1'
        · exact Or.inr (List.mem_cons_self k sps)
        · exact Or.inl h1'
      · exact Or.inr (List.mem_cons_of_mem s h2)

/-- Splitting a list's length by a predicate. -/
theorem length_filter_partition {α : Type} (P : List α) (p : α → Prop) [DecidablePred p] :
    (P.filter (fun a => p a)).length + (P.filter (fun a => ¬ p a)).length = P.length := by
  induction P with
  | nil => rfl
  | cons a P ih =>
    by_cases h : p a <;> simp [List.filter_cons, h, ← ih] <;> omega

/-- Partition counting: summing, over a duplicate-free list of classes
covering every element, the number of elements in each class gives the
total count. -/
theorem sum_filter_count {α : Type} (g : α → Tag) :
    ∀ (K : List Tag) (P : List α), K.Nodup → (∀ p ∈ P, g p ∈ K) →
      (K.map (fun t => (P.filter (fun p => g p = t)).length)).sum = P.length := by
  intro K
  induction K with
  | nil =>
    intro P _ hall
    cases P with
    | nil => rfl
    | cons p P => exact absurd (hall p (List.mem_cons_self p P)) (List.not_mem_nil _)
  | cons t K ih =>
    intro P hnd hall
    rw [List.map_cons, List.sum_cons]
    have htK : t ∉ K := (List.nodup_cons.mp hnd).1
    have hKall : ∀ p ∈ P.filter (fun p => ¬ g p = t), g p ∈ K := by
      intro p hp
      obtain ⟨hp1, hp2⟩ := List.mem_filter.mp hp
      rcases List.mem_cons.mp (hall p hp1) with h | h
      · exact absurd h (by simpa using hp2)
      · exact h
    have hEq : ∀ t' ∈ K, (P.filter (fun p => g p = t')).length
        = ((P.filter (fun p => ¬ g p = t)).filter (fun p => g p = t')).length := by
      intro t' ht'
      have htne : t' ≠ t := fun h => htK (h ▸ ht')
      congr 1
      rw [List.filter_filter]
      apply List.filter_congr
      intro p _
      by_cases h : g p = t'
      · have hno : ¬ g p = t := fun hc => htne (h.symm.trans hc)
        simp [h, hno, htne]
      · simp [h]
    rw [List.map_congr_left hEq, ih (P.filter (fun p => ¬ g p = t)) (List.nodup_cons.mp hnd).2
      hKall]
    exact length_filter_partition P (fun p => g p = t)

/-- The traversal visits exactly rows·cols pixels. -/
theorem pixelList_length (img : TagImage) :
    (pixelList img).length = img.rows * img.cols := by
  simp [pixelList, Function.comp_def, List.map_const', List.sum_replicate, mul_comm]

/-- A duplicate-free list of two or more elements holds one differing
from any given value. -/
theorem exists_ne_mem_of_one_lt {l : List Tag} (h : 1 < l.length) (hn : l.Nodup)
    (t : Tag) : ∃ u ∈ l, u ≠ t := by
  match l, h with
  | a :: b :: l', _ =>
    by_cases hat : a = t
    · refine ⟨b, List.mem_cons_of_mem a (List.mem_cons_self b l'), ?_⟩
      intro hbt
      exact (List.nodup_cons.mp hn).1 (by
        rw [hat, ← hbt]
        exact List.mem_cons_self b l')
    · exact ⟨a, List.mem_cons_self a (b :: l'), hat⟩

/-- `parse` on an image free of the reserved label: it succeeds, the
returned state is well-formed, its active ids are exactly the incremented
labels, each id owns the pixels of its label in row-major order, and all
pixels are accounted for. -/
theorem parse_success_spec (img : TagImage)
    (hlab : ∀ p ∈ pixelList img, img.tagAt p.1 p.2 < reservedTag) :
    ∃ st, parse img = some (incImage img, st) ∧ WF st ∧
      (∀ t, t ∈ st.superpixels ↔ ∃ p ∈ pixelList img, img.tagAt p.1 p.2 + 1 = t) ∧
      (∀ t, (st.tagToSuperpixelMap.lookup t).isSome ↔ t ∈ st.superpixels) ∧
      (∀ t sp, st.tagToSuperpixelMap.lookup t = some sp →
        sp.coords = ((pixelList img).filter (fun p => img.tagAt p.1 p.2 + 1 = t)).map
          (fun p => (p.2, p.1))) ∧
      totalCoords st = img.rows * img.cols := by
  obtain ⟨m', hfold1, hnd, hent, hmem⟩ := parsePixelFold_spec img (pixelList img) hlab [] []
    (by simp) (by intro q hq; exact absurd hq (List.not_mem_nil q))
    (by intro t; simp [List.lookup])
  simp only [List.nil_append] at hent hmem
  set sps := ((m'.map Prod.fst).insertionSort (· ≤ ·)) with hsps
  set img2 := incImage img with himg2
  have hperm : List.Perm sps (m'.map Prod.fst) := List.perm_insertionSort _ _
  have hspsnd : sps.Nodup := hperm.nodup_iff.mpr hnd
  have hsorted : sps.Sorted (· < ·) :=
    (List.sorted_insertionSort _ _).lt_of_le hspsnd
  have hmemsps : ∀ t, t ∈ sps ↔ (m'.lookup t).isSome := by
    intro t
    rw [hperm.mem_iff, ← lookup_isSome_iff_mem_keys]
  have hpix : pixelList img2 = pixelList img := rfl
  have htag2 : ∀ y x, img2.tagAt y x = img.tagAt y x + 1 := fun y x => rfl
  have hok : ∀ t ∈ sps,
      ¬(1 < sps.length ∧ ((tagToNeighborMapOf img2).lookup t).getD [] = []) := by
    intro t ht
    rintro ⟨hlen, hnil⟩
    obtain ⟨p, hp, hpt⟩ := (hmem t).mp ((hmemsps t).mp ht)
    obtain ⟨u, hu, hut⟩ := exists_ne_mem_of_one_lt hlen hspsnd t
    obtain ⟨q, hq, hqu⟩ := (hmem u).mp ((hmemsps u).mp hu)
    have hpt2 : img2.tagAt p.1 p.2 = t := by rw [htag2, hpt]
    have hqt2 : img2.tagAt q.1 q.2 ≠ t := by
      rw [htag2, hqu]
      exact hut
    obtain ⟨t', hadj⟩ := exists_adjacent img2 t p q (hpix ▸ hp) (hpix ▸ hq) hpt2 hqt2
    have hmem' := tagToNeighborMap_complete img2 t t' hadj
    rw [hnil] at hmem'
    exact absurd hmem' (List.not_mem_nil t')
  obtain ⟨et', hfold2, hrows, hndet, hkeyset⟩ :=
    setEdges_fold_spec (tagToNeighborMapOf img2) sps.length sps ⟨[], []⟩ hok
  have hndet' : (et'.neighborsMap.map Prod.fst).Nodup := hndet (by simp)
  have hrow' : ∀ t, et'.getNeighbors t
      = if t ∈ sps then ((tagToNeighborMapOf img2).lookup t).getD [] else [] := by
    intro t
    rw [hrows t]
    by_cases h : t ∈ sps
    · rw [if_pos h, if_pos h]
    · rw [if_neg h, if_neg h]
      rfl
  have hnmactive : ∀ t t', t' ∈ ((tagToNeighborMapOf img2).lookup t).getD [] →
      t' ∈ sps := by
    intro t t' h
    obtain ⟨hne', p, hp, off, hoff, hat, hbound, hfound⟩ :=
      (tagToNeighborMap_mem img2 t t').mp h
    push_neg at hbound
    obtain ⟨hx0, hxc, hy0, hyr⟩ := hbound
    have hq : (((p.1 : Int) + off.2).toNat, ((p.2 : Int) + off.1).toNat) ∈ pixelList img2 := by
      rw [mem_pixelList]
      constructor
      · show ((p.1 : Int) + off.2).toNat < img2.rows
        omega
      · show ((p.2 : Int) + off.1).toNat < img2.cols
        omega
    rw [hmemsps, hmem]
    exact ⟨_, hpix ▸ hq, by rw [← htag2]; exact hfound⟩
  have hparse : parse img = some (img2, ⟨m', sps, et'⟩) := by
    rw [parse, hfold1]
    show parseSuperpixelEdges img2 sps >>= _ = _
    rw [parseSuperpixelEdges, hfold2]
    rfl
  have hrowval : ∀ r, r ∈ et'.neighborsMap → et'.getNeighbors r.1 = r.2 := by
    intro r hr
    rw [SuperpixelEdgeTable.getNeighbors, mem_lookup_of_keysNodup hndet' hr]
    rfl
  refine ⟨⟨m', sps, et'⟩, hparse, ?_, ?_, ?_, ?_, ?_⟩
  · refine ⟨hsorted, hnd, hndet', ?_, ?_, ?_, ?_, ?_, ?_, ?_, ?_⟩
    · intro t ht
      exact (hmemsps t).mp ht
    · intro p hp
      exact (hmemsps p.1).mpr ((lookup_isSome_iff_mem_keys m' p.1).mpr
        (List.mem_map.mpr ⟨p, hp, rfl⟩))
    · intro p hp
      exact (hent p hp).1
    · intro r hr
      rcases hkeyset r.1 (List.mem_map.mpr ⟨r, hr, rfl⟩) with h | h
      · exact absurd h (by simp)
      · exact h
    · intro r hr n hn
      rw [← hrowval r hr, hrow'] at hn
      by_cases h : r.1 ∈ sps
      · rw [if_pos h] at hn
        exact hnmactive r.1 n hn
      · rw [if_neg h] at hn
        exact absurd hn (List.not_mem_nil n)
    · intro r hr n hn
      rw [← hrowval r hr, hrow'] at hn
      by_cases h : r.1 ∈ sps
      · rw [if_pos h] at hn
        have hadj := (tagToNeighborMap_mem img2 r.1 n).mp hn
        have hadj' := adjacentTags_symm img2 r.1 n hadj
        have hns : n ∈ sps := hnmactive r.1 n hn
        rw [hrow', if_pos hns]
        exact tagToNeighborMap_complete img2 n r.1 hadj'
      · rw [if_neg h] at hn
        exact absurd hn (List.not_mem_nil n)
    · intro r hr
      rw [← hrowval r hr, hrow']
      by_cases h : r.1 ∈ sps
      · rw [if_pos h]
        exact (tagToNeighborMap_nodup_noSelf img2 r.1).2
      · rw [if_neg h]
        exact List.not_mem_nil r.1
    · intro r hr
      rw [← hrowval r hr, hrow']
      by_cases h : r.1 ∈ sps
      · rw [if_pos h]
        exact (tagToNeighborMap_nodup_noSelf img2 r.1).1
      · rw [if_neg h]
        exact List.nodup_nil
  · intro t
    rw [show (⟨m', sps, et'⟩ : SuperpixelImageState).superpixels = sps from rfl,
      hmemsps t, hmem t]
  · intro t
    exact (hmemsps t).symm
  · intro t sp hsp
    exact (hent (t, sp) (lookup_mem hsp)).2.2.2
  · have hsize : ∀ t ∈ sps, sizeOfTag ⟨m', sps, et'⟩ t
        = ((pixelList img).filter (fun p => img.tagAt p.1 p.2 + 1 = t)).length := by
      intro t ht
      obtain ⟨sp, hsp⟩ := Option.isSome_iff_exists.mp ((hmemsps t).mp ht)
      rw [sizeOfTag]
      rw [show (⟨m', sps, et'⟩ : SuperpixelImageState).tagToSuperpixelMap = m' from rfl, hsp]
      show sp.coords.length = _
      rw [(hent (t, sp) (lookup_mem hsp)).2.2.2, List.length_map]
    rw [totalCoords]
    rw [show (⟨m', sps, et'⟩ : SuperpixelImageState).superpixels = sps from rfl]
    rw [List.map_congr_left hsize]
    rw [(hperm.map (fun t =>
      ((pixelList img).filter (fun p => img.tagAt p.1 p.2 + 1 = t)).length)).sum_eq]
    rw [sum_filter_count (fun p => img.tagAt p.1 p.2 + 1) (m'.map Prod.fst)
      (pixelList img) hnd (by
        intro p hp
        rw [← lookup_isSome_iff_mem_keys, hmem]
        exact ⟨p, hp, rfl⟩)]
    exact pixelList_length img

/-- The first scan fails as soon as any visited pixel's label is not
below the reserved value. -/
theorem parsePixelFold_fail (img : TagImage) :
    ∀ (l : List (Nat × Nat)) (m : SpMap) (p : Nat × Nat), p ∈ l →
      ¬ img.tagAt p.1 p.2 < reservedTag →
      l.foldlM (parsePixelStep img) m = none := by
  intro l
  induction l with
  | nil =>
    intro m p hp
    exact absurd hp (List.not_mem_nil p)
  | cons q l ih =>
    intro m p hp hbad
    rw [List.foldlM_cons]
    rcases List.mem_cons.mp hp with rfl | hp'
    · have hstep : parsePixelStep img m p = none := by
        rw [parsePixelStep]
        by_cases heq : img.tagAt p.1 p.2 = reservedTag
        · rw [if_pos heq]
        · rw [if_neg heq, if_neg hbad]
      rw [hstep]
      rfl
    · cases hstep : parsePixelStep img m q with
      | none => rfl
      | some m1 =>
        show l.foldlM (parsePixelStep img) m1 = none
        exact ih m1 p hp' hbad

/-- A successful parse certifies that every label was below the reserved
value. -/
theorem parse_labels_ok (img img2 : TagImage) (st : SuperpixelImageState)
    (hm : parse img = some (img2, st)) :
    ∀ p ∈ pixelList img, img.tagAt p.1 p.2 < reservedTag := by
  intro p hp
  by_contra hbad
  have hfail := parsePixelFold_fail img (pixelList img) [] p hp hbad
  rw [parse, hfail] at hm
  exact absurd hm (by simp)

/-- A successful parse yields a well-formed state. -/
theorem parse_WF (img img2 : TagImage) (st : SuperpixelImageState)
    (hm : parse img = some (img2, st)) : WF st := by
  have hlab := parse_labels_ok img img2 st hm
  obtain ⟨st0, hp0, hwf0, _⟩ := parse_success_spec img hlab
  have hEq := hp0.symm.trans hm
  injection hEq with hpair
  have h2 : st0 = st := congrArg Prod.snd hpair
  exact h2 ▸ hwf0

/-- Every state the public interface produces is well-formed. -/
theorem Reachable_WF (st : SuperpixelImageState) (h : Reachable st) : WF st := by
  induction h with
  | parsed img img2 st hm => exact parse_WF img img2 st hm
  | merged st st' a b _ hm ih => exact mergeEdge_WF st st' a b ih hm

/-- CLAIM C2.  After every public operation — the initial parse and any
sequence of merges — the adjacency table is symmetric (`y` neighbors `x`
iff `x` neighbors `y`) and irreflexive (no region neighbors itself). -/
theorem adjacency_invariants (st : SuperpixelImageState) (h : Reachable st) :
    (∀ x y, y ∈ neighborsOf st x ↔ x ∈ neighborsOf st y) ∧
    (∀ x, x ∉ neighborsOf st x) := by
  have hwf := Reachable_WF st h
  exact ⟨fun x y => ⟨fun hm => hwf.symmFn hm, fun hm => hwf.symmFn hm⟩, hwf.noSelfFn⟩

/-- Witness for C2: the state parsed from the 2×2 test image. -/
theorem adjacency_invariants_witness :
    ∃ st, Reachable st ∧ ((∀ x y, y ∈ neighborsOf st x ↔ x ∈ neighborsOf st y) ∧
      (∀ x, x ∉ neighborsOf st x)) := by
  have h : (parse testImg).isSome := by decide
  obtain ⟨pr, hm⟩ := Option.isSome_iff_exists.mp h
  exact ⟨pr.2, Reachable.parsed testImg pr.1 pr.2 (by rw [hm]),
    adjacency_invariants pr.2 (Reachable.parsed testImg pr.1 pr.2 (by rw [hm]))⟩

/-- CLAIM C6.  For a label image of 24-bit label values: if any pixel
carries the reserved label 0x00FFFFFF the parse fails; otherwise it
succeeds, returns the label image offset by one, and yields one region
per distinct label value (active ids are exactly the incremented labels,
each backed by a map entry), with the active list strictly ascending and
the total coordinate count equal to the pixel count. -/
theorem parse_spec (img : TagImage)
    (h24 : ∀ p ∈ pixelList img, img.tagAt p.1 p.2 ≤ reservedTag) :
    ((∃ p ∈ pixelList img, img.tagAt p.1 p.2 = reservedTag) → parse img = none) ∧
    ((∀ p ∈ pixelList img, img.tagAt p.1 p.2 ≠ reservedTag) →
      ∃ st, parse img = some (incImage img, st) ∧
        st.superpixels.Sorted (· < ·) ∧
        (∀ t, t ∈ st.superpixels ↔ ∃ p ∈ pixelList img, img.tagAt p.1 p.2 + 1 = t) ∧
        (∀ t, (st.tagToSuperpixelMap.lookup t).isSome ↔ t ∈ st.superpixels) ∧
        totalCoords st = img.rows * img.cols) := by
  constructor
  · rintro ⟨p, hp, heq⟩
    have hfail := parsePixelFold_fail img (pixelList img) [] p hp (by
      rw [heq]
      exact lt_irrefl _)
    rw [parse, hfail]
    rfl
  · intro hne
    have hlab : ∀ p ∈ pixelList img, img.tagAt p.1 p.2 < reservedTag := by
      intro p hp
      exact lt_of_le_of_ne (h24 p hp) (hne p hp)
    obtain ⟨st, hp0, hwf, hact, hlive, _, htot⟩ := parse_success_spec img hlab
    exact ⟨st, hp0, hwf.sorted, hact, hlive, htot⟩

/-- Witness for C6: the 2×2 test image. -/
theorem parse_spec_witness :
    ((∃ p ∈ pixelList testImg, testImg.tagAt p.1 p.2 = reservedTag) →
      parse testImg = none) ∧
    ((∀ p ∈ pixelList testImg, testImg.tagAt p.1 p.2 ≠ reservedTag) →
      ∃ st, parse testImg = some (incImage testImg, st) ∧
        st.superpixels.Sorted (· < ·) ∧
        (∀ t, t ∈ st.superpixels ↔
          ∃ p ∈ pixelList testImg, testImg.tagAt p.1 p.2 + 1 = t) ∧
        (∀ t, (st.tagToSuperpixelMap.lookup t).isSome ↔ t ∈ st.superpixels) ∧
        totalCoords st = testImg.rows * testImg.cols) :=
  parse_spec testImg (by decide)

/-- CLAIM C9.  A successful parse hands back the caller's label image
with every pixel overwritten by its original label plus one, and the
region coordinates are grouped against these incremented labels. -/
theorem parse_mutates_input (img img2 : TagImage) (st : SuperpixelImageState)
    (hm : parse img = some (img2, st)) :
    (∀ y x, img2.tagAt y x = img.tagAt y x + 1) ∧
    (∀ t sp, st.tagToSuperpixelMap.lookup t = some sp →
      ∀ c ∈ sp.coords, img2.tagAt c.2 c.1 = t) := by
  have hlab := parse_labels_ok img img2 st hm
  obtain ⟨st0, hp0, _, _, _, hcoords, _⟩ := parse_success_spec img hlab
  have hEq := hp0.symm.trans hm
  injection hEq with hpair
  have h1 : incImage img = img2 := congrArg Prod.fst hpair
  have h2 : st0 = st := congrArg Prod.snd hpair
  subst h1
  subst h2
  refine ⟨fun y x => rfl, ?_⟩
  intro t sp hsp c hc
  rw [hcoords t sp hsp] at hc
  obtain ⟨p, hpf, hpc⟩ := List.mem_map.mp hc
  obtain ⟨hpmem, hpt⟩ := List.mem_filter.mp hpf
  have hc2 : c.2 = p.1 := by rw [← hpc]
  have hc1 : c.1 = p.2 := by rw [← hpc]
  rw [hc2, hc1]
  show img.tagAt p.1 p.2 + 1 = t
  simpa using hpt

/-- Witness for C9: the 2×2 test image. -/
theorem parse_mutates_witness :
    ∃ pr : TagImage × SuperpixelImageState, parse testImg = some pr ∧
      (∀ y x, pr.1.tagAt y x = testImg.tagAt y x + 1) ∧
      (∀ t sp, pr.2.tagToSuperpixelMap.lookup t = some sp →
        ∀ c ∈ sp.coords, pr.1.tagAt c.2 c.1 = t) := by
  have h : (parse testImg).isSome := by decide
  obtain ⟨pr, hm⟩ := Option.isSome_iff_exists.mp h
  have hm' : parse testImg = some (pr.1, pr.2) := by rw [hm]
  obtain ⟨h1, h2⟩ := parse_mutates_input testImg pr.1 pr.2 hm'
  exact ⟨pr, hm, h1, h2⟩

end ClusteringSeg
